import Mathlib

/-!
Verification of the taffy-js layout-tree bindings and of the retained-mode
layout core they expose.

The binding layer (Style property marshalling, the measure-callback closure,
the layout read wrappers, the context accessors) is embedded directly from
src/src/lib.rs.  The core tree engine (node arena, dirty tracking, structural
mutation, layout caching) lives in the external taffy crate, whose sources are
not part of this repository; those parts are modelled from the specification
and each such definition is marked `Modelled from the spec:` in its doc
comment.
-/

namespace TaffyJs

/-! ### Binding-level enum types (src/src/lib.rs, lines 154-176) -/

/-- The binding's AlignSelf enum (lib.rs line 171). -/
inductive AlignSelf where
  | Auto | Start | End | FlexStart | FlexEnd | Center | Baseline | Stretch
deriving DecidableEq

/-- taffy's native AlignSelf type (an alias of AlignItems): it has no Auto
variant. -/
inductive TaffyAlignSelf where
  | Start | End | FlexStart | FlexEnd | Center | Baseline | Stretch
deriving DecidableEq

/-- The From impl converting the binding enum to the taffy enum
(lib.rs lines 172-173).  Note that Auto is mapped to Stretch here. -/
def AlignSelf.toTaffy : AlignSelf → TaffyAlignSelf
  | .Auto => .Stretch
  | .Start => .Start
  | .End => .End
  | .FlexStart => .FlexStart
  | .FlexEnd => .FlexEnd
  | .Center => .Center
  | .Baseline => .Baseline
  | .Stretch => .Stretch

/-- The From impl converting the taffy enum back to the binding enum
(lib.rs lines 175-176). -/
def TaffyAlignSelf.toJs : TaffyAlignSelf → AlignSelf
  | .Start => .Start
  | .End => .End
  | .FlexStart => .FlexStart
  | .FlexEnd => .FlexEnd
  | .Center => .Center
  | .Baseline => .Baseline
  | .Stretch => .Stretch

/-- The slice of the binding's Style relevant here: the wrapped taffy style's
align_self field (TaffyStyle::default() has align_self = None). -/
structure Style where
  alignSelfInner : Option TaffyAlignSelf
deriving DecidableEq

/-- Style::new(): wraps TaffyStyle::default(), whose align_self is None. -/
def Style.new : Style := ⟨none⟩

/-- The align_self getter (lib.rs line 743): a None in the wrapped style is
surfaced as Some(AlignSelf::Auto). -/
def Style.align_self (s : Style) : Option AlignSelf :=
  match s.alignSelfInner with
  | some v => some v.toJs
  | none => some .Auto

/-- The align_self setter (lib.rs line 747): Some(Auto) is stored as None;
any other value goes through the From conversion; None is stored as None. -/
def Style.set_align_self (s : Style) (val : Option AlignSelf) : Style :=
  { s with alignSelfInner :=
      match val with
      | some .Auto => none
      | some other => some other.toTaffy
      | none => none }

/-! ### The measure-callback closure (src/src/lib.rs, lines 1404-1421) -/

/-- A JavaScript value as far as the measure closure is concerned: the
callback either produces a value that parses as a Size (width and height),
or something unusable. -/
inductive JsVal where
  | undefined
  | size (width height : Nat)
  | other
deriving DecidableEq

/-- Size of measured content. -/
structure SizeN where
  width : Nat
  height : Nat
deriving DecidableEq

/-- Size::ZERO. -/
def SizeN.zero : SizeN := ⟨0, 0⟩

/-- serde_wasm_bindgen::from_value::<Size<f32>>: succeeds exactly when the
callback result is a well-formed size object. -/
def from_value (v : JsVal) : Option SizeN :=
  match v with
  | .size w h => some ⟨w, h⟩
  | _ => none

/-- The closure built by compute_layout_with_measure (lib.rs 1407-1419):
`measure_func.apply(...).unwrap_or(JsValue::UNDEFINED)` followed by
`serde_wasm_bindgen::from_value(result_val).unwrap_or(Size::ZERO)`.
The argument is the outcome of the JS call: none models a thrown exception. -/
def measure_closure (applyResult : Option JsVal) : SizeN :=
  (from_value (applyResult.getD .undefined)).getD SizeN.zero

/-! ### Error taxonomy (spec section 7) -/

/-- Modelled from the spec: the error taxonomy of section 7.  The binding
surfaces errors as strings, but these are the distinct failure categories
named by the spec. -/
inductive TaffyErr where
  | NotFound | IndexOutOfBounds | InvalidHierarchy | NotComputed | MeasurementFailed
deriving DecidableEq

/-! ### The node arena (Modelled from the spec: sections 3 and 4.1; the
concrete arena lives in the external taffy crate, not in src/) -/

/-- Per-axis available-space constraint (spec section 3). -/
inductive AvailAxis where
  | definite (v : Int)
  | minContent
  | maxContent
deriving DecidableEq

/-- Two-axis available space. -/
structure AvailSpace where
  width : AvailAxis
  height : AvailAxis
deriving DecidableEq

/-- A computed box layout (opaque payload produced by the layout engine). -/
structure LayoutRec where
  x : Int
  y : Int
  width : Int
  height : Int
deriving DecidableEq

/-- Modelled from the spec: a node record (spec section 3, NodeRecord).
Styles and context values are opaque to the core and modelled as numeric
tokens. -/
structure NodeRec where
  style : Nat
  parent : Option Nat
  children : List Nat
  context : Option Nat
  cached_layout : Option (AvailSpace × LayoutRec)
  dirty : Bool
deriving DecidableEq

/-- Modelled from the spec: the node arena.  Node ids are handed out from a
counter and never reused, modelling the generation+index handles of the spec
(section 3, NodeId): a removed id never becomes valid again. -/
structure Tree where
  next_id : Nat
  nodes : List (Nat × NodeRec)
deriving DecidableEq

/-- The empty tree. -/
def emptyTree : Tree := ⟨0, []⟩

/-- First-match association-list lookup. -/
def lookupN : List (Nat × NodeRec) → Nat → Option NodeRec
  | [], _ => none
  | p :: rest, n => if p.1 = n then some p.2 else lookupN rest n

/-- Update the (first) entry with the given key, if present. -/
def updN : List (Nat × NodeRec) → Nat → (NodeRec → NodeRec) → List (Nat × NodeRec)
  | [], _, _ => []
  | p :: rest, n, f => if p.1 = n then (p.1, f p.2) :: rest else p :: updN rest n f

/-- Remove all entries with the given key. -/
def eraseN : List (Nat × NodeRec) → Nat → List (Nat × NodeRec)
  | [], _ => []
  | p :: rest, n => if p.1 = n then eraseN rest n else p :: eraseN rest n

def findNode (t : Tree) (n : Nat) : Option NodeRec := lookupN t.nodes n

def live (t : Tree) (n : Nat) : Bool := (findNode t n).isSome

def parentOf (t : Tree) (n : Nat) : Option Nat := (findNode t n).bind (·.parent)

def childrenOf (t : Tree) (n : Nat) : List Nat :=
  ((findNode t n).map (·.children)).getD []

def styleOf (t : Tree) (n : Nat) : Option Nat := (findNode t n).map (·.style)

def dirtyOf (t : Tree) (n : Nat) : Option Bool := (findNode t n).map (·.dirty)

def cachedOf (t : Tree) (n : Nat) : Option (AvailSpace × LayoutRec) :=
  (findNode t n).bind (·.cached_layout)

def updateNode (t : Tree) (n : Nat) (f : NodeRec → NodeRec) : Tree :=
  ⟨t.next_id, updN t.nodes n f⟩

def eraseNode (t : Tree) (n : Nat) : Tree :=
  ⟨t.next_id, eraseN t.nodes n⟩

/-! ### Ancestor walks (Modelled from the spec: section 4.2's iterative
parent-walk; fuel bounds the loop, next_id steps always suffice on a valid
tree) -/

/-- The list of strict ancestors of a node, walking parent links with the
given amount of fuel. -/
def ancChain (t : Tree) : Nat → Nat → List Nat
  | 0, _ => []
  | f + 1, n =>
    match parentOf t n with
    | none => []
    | some q => q :: ancChain t f q

/-- Whether the parent walk from a node reaches a parentless root within the
given amount of fuel. -/
def rootedB (t : Tree) : Nat → Nat → Bool
  | 0, _ => false
  | f + 1, n =>
    match parentOf t n with
    | none => true
    | some q => rootedB t f q

/-- The ancestors of a node, with the canonical fuel. -/
def ancestors (t : Tree) (n : Nat) : List Nat := ancChain t t.next_id n

/-! ### Dirty marking (Modelled from the spec: section 4.2) -/

/-- Set the dirty flag on every node in the list. -/
def setDirtyList : Tree → List Nat → Tree
  | t, [] => t
  | t, n :: rest => setDirtyList (updateNode t n (fun r => { r with dirty := true })) rest

/-- Modelled from the spec: mark_dirty sets the node's flag and that of every
ancestor up to and including the root (section 4.2). -/
def mark_dirty_core (t : Tree) (n : Nat) : Tree :=
  setDirtyList t (n :: ancestors t n)

/-! ### Structural mutation (Modelled from the spec: sections 4.1 and 4.3;
the concrete implementation is the external taffy crate) -/

/-- Insert an element at the given index, clamping to the end when the index
exceeds the length (so the element is always inserted). -/
def insertAt : List Nat → Nat → Nat → List Nat
  | l, 0, c => c :: l
  | [], _ + 1, c => [c]
  | x :: rest, pos + 1, c => x :: insertAt rest pos c

/-- Detach a node from its current parent: remove it from the parent's
children list and clear its parent back-reference. -/
def detach (t : Tree) (c : Nat) : Tree :=
  match parentOf t c with
  | none => t
  | some p =>
      updateNode (updateNode t p (fun r => { r with children := r.children.erase c }))
        c (fun r => { r with parent := none })

/-- Link a (currently parentless) node under a parent at the given position:
both the children list and the parent back-reference are updated. -/
def attach (t : Tree) (p c : Nat) (pos : Nat) : Tree :=
  updateNode (updateNode t p (fun r => { r with children := insertAt r.children pos c }))
    c (fun r => { r with parent := some p })

/-- Modelled from the spec: the cycle detection of section 4.3, walking the
ancestors of the prospective parent and rejecting the child if found among
them (or equal to the parent). -/
def cycleCheck (t : Tree) (p c : Nat) : Bool :=
  decide (c = p) || decide (c ∈ ancestors t p)

/-- Modelled from the spec: create a new leaf node; it starts dirty, with no
cached layout and no children (spec section 3, lifecycle). -/
def new_leaf (t : Tree) (style : Nat) : Nat × Tree :=
  (t.next_id,
   ⟨t.next_id + 1, (t.next_id, ⟨style, none, [], none, none, true⟩) :: t.nodes⟩)

/-- Modelled from the spec: create a new leaf carrying a context value. -/
def new_leaf_with_context (t : Tree) (style ctx : Nat) : Nat × Tree :=
  (t.next_id,
   ⟨t.next_id + 1, (t.next_id, ⟨style, none, [], some ctx, none, true⟩) :: t.nodes⟩)

/-- Modelled from the spec: append a child (section 4.3).  Checks that both
nodes are live, rejects cycles with InvalidHierarchy, atomically moves the
child under the new parent and marks the parent subtree-dirty. -/
def add_child (t : Tree) (p c : Nat) : Except TaffyErr Tree :=
  match findNode t p with
  | none => .error .NotFound
  | some _ =>
    match findNode t c with
    | none => .error .NotFound
    | some _ =>
      if cycleCheck t p c then .error .InvalidHierarchy
      else
        let t1 := detach t c
        .ok (mark_dirty_core (attach t1 p c (childrenOf t1 p).length) p)

/-- Modelled from the spec: insert a child at an index (section 4.3).  The
index must lie in [0, child_count]; index validation precedes the cycle
check. -/
def insert_child_at_index (t : Tree) (p idx c : Nat) : Except TaffyErr Tree :=
  match findNode t p with
  | none => .error .NotFound
  | some r =>
    match findNode t c with
    | none => .error .NotFound
    | some _ =>
      if r.children.length < idx then .error .IndexOutOfBounds
      else if cycleCheck t p c then .error .InvalidHierarchy
      else .ok (mark_dirty_core (attach (detach t c) p c idx) p)

/-- Modelled from the spec: replace the child at an index (section 4.3),
returning the replaced child's id.  The replaced child becomes a parentless
root. -/
def replace_child_at_index (t : Tree) (p idx c : Nat) : Except TaffyErr (Nat × Tree) :=
  match findNode t p with
  | none => .error .NotFound
  | some r =>
    match findNode t c with
    | none => .error .NotFound
    | some _ =>
      if idx < r.children.length then
        if cycleCheck t p c then .error .InvalidHierarchy
        else
          let old := r.children.getD idx 0
          let t2 := detach (detach t old) c
          .ok (old, mark_dirty_core (attach t2 p c idx) p)
      else .error .IndexOutOfBounds

/-- Modelled from the spec: replace the whole children list (section 4.3).
Prior children are detached, not destroyed; a duplicated child in the new
list would violate the children-uniqueness invariant and is rejected with
InvalidHierarchy, as is any child that would become a descendant of
itself. -/
def set_children (t : Tree) (p : Nat) (cs : List Nat) : Except TaffyErr Tree :=
  match findNode t p with
  | none => .error .NotFound
  | some _ =>
    if !(cs.all (fun c => live t c)) then .error .NotFound
    else if !(decide cs.Nodup) then .error .InvalidHierarchy
    else if cs.any (fun c => cycleCheck t p c) then .error .InvalidHierarchy
    else
      let t1 := (childrenOf t p).foldl detach t
      let t2 := cs.foldl (fun acc c =>
        let acc1 := detach acc c
        attach acc1 p c (childrenOf acc1 p).length) t1
      .ok (mark_dirty_core t2 p)

/-- Modelled from the spec: remove a node (section 4.1): returns the removed
id, detaches it from its parent, leaves its children in the arena as
parentless roots, and frees the id.  The spec's generational handles mean the
id never becomes valid again. -/
def remove (t : Tree) (n : Nat) : Except TaffyErr (Nat × Tree) :=
  match findNode t n with
  | none => .error .NotFound
  | some r =>
    let t1 := detach t n
    let t2 := r.children.foldl
      (fun acc c => updateNode acc c (fun rc => { rc with parent := none })) t1
    let t3 := eraseNode t2 n
    .ok (n, match r.parent with
            | some p => mark_dirty_core t3 p
            | none => t3)

/-- Modelled from the spec: set_style always marks the node dirty, whether or
not the new style differs from the old (section 4.1). -/
def set_style (t : Tree) (n : Nat) (s : Nat) : Except TaffyErr Tree :=
  match findNode t n with
  | none => .error .NotFound
  | some _ =>
      .ok (mark_dirty_core (updateNode t n (fun r => { r with style := s })) n)

/-- Modelled from the spec: the dirty query (section 4.2). -/
def dirty (t : Tree) (n : Nat) : Except TaffyErr Bool :=
  match findNode t n with
  | none => .error .NotFound
  | some r => .ok r.dirty

/-- Modelled from the spec: mark_dirty's public entry point. -/
def mark_dirty (t : Tree) (n : Nat) : Except TaffyErr Tree :=
  match findNode t n with
  | none => .error .NotFound
  | some _ => .ok (mark_dirty_core t n)

/-- Modelled from the spec: the layout read (section 4.4): NotFound for a
stale or unknown id, NotComputed for a live node that no successful
compute_layout call has covered. -/
def layout (t : Tree) (n : Nat) : Except TaffyErr LayoutRec :=
  match findNode t n with
  | none => .error .NotFound
  | some r =>
    match r.cached_layout with
    | none => .error .NotComputed
    | some (_, l) => .ok l

/-! ### The unrounded_layout binding wrapper (src/src/lib.rs, lines
1452-1455) -/

/-- Outcome of a binding call that may also abort (a Rust panic surfaced as a
WebAssembly trap), as distinct from returning an error value. -/
inductive LayoutCall where
  | ok (l : LayoutRec)
  | err (e : TaffyErr)
  | abort
deriving DecidableEq

/-- The unroundedLayout wrapper (lib.rs 1452-1455): it calls the core's
infallible unrounded-layout read and wraps the result in Ok with no error
mapping at all.  For a live node the core returns the stored layout (the
zero layout before any computation); for a stale or unknown id the core's
unchecked slot access panics, which surfaces as an abort, not as a returned
error. -/
def unrounded_layout (t : Tree) (n : Nat) : LayoutCall :=
  match findNode t n with
  | some r => .ok ((r.cached_layout.map Prod.snd).getD ⟨0, 0, 0, 0⟩)
  | none => .abort

/-! ### The node-context binding accessors (src/src/lib.rs, lines
1494-1499) -/

/-- The getNodeContext wrapper (lib.rs 1494-1499): the core lookup yields an
optional context (none both for a contextless node and for an id that is not
live), and the wrapper maps Some to Ok(value) and None to Ok(undefined) —
it has no error path. -/
def get_node_context (t : Tree) (n : Nat) : Except TaffyErr (Option Nat) :=
  match (findNode t n).bind (·.context) with
  | some ctx => .ok (some ctx)
  | none => .ok none

/-! ### The op language: sequences of public mutations -/

/-- A public mutation operation on the tree. -/
inductive Op where
  | newLeaf (style : Nat)
  | addChild (p c : Nat)
  | insertChildAtIndex (p idx c : Nat)
  | replaceChildAtIndex (p idx c : Nat)
  | setChildren (p : Nat) (cs : List Nat)
  | removeNode (n : Nat)
  | setStyle (n s : Nat)
  | markDirty (n : Nat)

/-- Run one operation, returning the new tree or the error. -/
def stepOp (t : Tree) : Op → Except TaffyErr Tree
  | .newLeaf s => .ok (new_leaf t s).2
  | .addChild p c => add_child t p c
  | .insertChildAtIndex p i c => insert_child_at_index t p i c
  | .replaceChildAtIndex p i c => (replace_child_at_index t p i c).map (·.2)
  | .setChildren p cs => set_children t p cs
  | .removeNode n => (remove t n).map (·.2)
  | .setStyle n s => set_style t n s
  | .markDirty n => mark_dirty t n

/-- Apply one operation; a failing operation leaves the tree unchanged
(operations fully succeed or fully fail, spec section 7). -/
def applyOp (t : Tree) (op : Op) : Tree :=
  match stepOp t op with
  | .ok t' => t'
  | .error _ => t

/-- Apply a sequence of operations. -/
def applyOps (ops : List Op) (t : Tree) : Tree := ops.foldl applyOp t

/-! ### The tree invariant -/

/-- The per-node well-formedness conditions: bounded id, duplicate-free
children, children live and pointing back, parent live and listing the node,
and a parent walk that reaches a root within next_id steps. -/
def nodeOK (t : Tree) (k : Nat) : Prop :=
  k < t.next_id ∧ (childrenOf t k).Nodup
  ∧ (∀ c ∈ childrenOf t k, live t c = true ∧ parentOf t c = some k)
  ∧ (∀ q ∈ (parentOf t k).toList, live t q = true ∧ k ∈ childrenOf t q)
  ∧ rootedB t t.next_id k = true

instance (t : Tree) (k : Nat) : Decidable (nodeOK t k) := by
  unfold nodeOK
  infer_instance

/-- The global tree invariant: unique arena keys and per-node
well-formedness. -/
def Inv (t : Tree) : Prop :=
  (t.nodes.map Prod.fst).Nodup ∧ ∀ k ∈ t.nodes.map Prod.fst, nodeOK t k

instance (t : Tree) : Decidable (Inv t) := by
  unfold Inv
  infer_instance

/-- Descendant reachability along children links. -/
inductive ChildReach (t : Tree) : Nat → Nat → Prop
  | child {n c} : c ∈ childrenOf t n → ChildReach t n c
  | trans {a b c} : ChildReach t a b → ChildReach t b c → ChildReach t a c

/-- Ancestor reachability along parent links. -/
inductive Ances (t : Tree) : Nat → Nat → Prop
  | step {n q} : parentOf t n = some q → Ances t n q
  | trans {a b c} : Ances t a b → Ances t b c → Ances t a c

/-- Attaching c under p would make a node a descendant of itself: p is c
itself or already a descendant of c. -/
def SelfDescend (t : Tree) (p c : Nat) : Prop :=
  c = p ∨ ChildReach t c p

/-! ### The layout computation driver (Modelled from the spec: section 4.4) -/

/-- The external layout algorithm capability (spec section 6): a pure box
computation from style, child layouts and available space, plus the derived
constraint it imposes on a child subtree. -/
structure Engine where
  box : Nat → List LayoutRec → AvailSpace → LayoutRec
  childSpace : Nat → AvailSpace → AvailSpace

/-- Write a computed layout and its available-space signature to a node and
clear its dirty flag (spec section 4.4, step 4). -/
def storeLayout (t : Tree) (n : Nat) (sp : AvailSpace) (l : LayoutRec) : Tree :=
  updateNode t n (fun r => { r with dirty := false, cached_layout := some (sp, l) })

/-- One node's stored result, built from the outcome `sub` of computing its
children (spec section 4.4, steps 3-4): the engine combines the child boxes
and the result is cached under the current constraint. -/
def restResult (eng : Engine) (_t : Tree) (sp : AvailSpace) (n : Nat) (r : NodeRec)
    (sub : Except TaffyErr (Tree × List LayoutRec × List Nat)) :
    Except TaffyErr (Tree × LayoutRec × List Nat) :=
  match sub with
  | .error e => .error e
  | .ok (t1, ls, log) =>
      .ok (storeLayout t1 n sp (eng.box r.style ls sp), eng.box r.style ls sp, log ++ [n])

/-- One node's stored result when it must be recomputed: a childless leaf with
a measure function is measured directly (spec section 4.5), anything else goes
through the engine via restResult. -/
def freshResult (eng : Engine) (ms : Option (AvailSpace → Option Nat → SizeN))
    (t : Tree) (sp : AvailSpace) (n : Nat) (r : NodeRec)
    (sub : Except TaffyErr (Tree × List LayoutRec × List Nat)) :
    Except TaffyErr (Tree × LayoutRec × List Nat) :=
  match ms with
  | some m =>
      if r.children = [] then
        .ok (storeLayout t n sp ⟨0, 0, (m sp r.context).width, (m sp r.context).height⟩,
          ⟨0, 0, (m sp r.context).width, (m sp r.context).height⟩, [n])
      else restResult eng t sp n r sub
  | none => restResult eng t sp n r sub

/-- One node's result: a clean node whose stored constraint signature matches
is served from cache (spec section 4.4, step 1), otherwise it is recomputed. -/
def nodeResult (eng : Engine) (ms : Option (AvailSpace → Option Nat → SizeN))
    (t : Tree) (sp : AvailSpace) (n : Nat) (r : NodeRec)
    (sub : Except TaffyErr (Tree × List LayoutRec × List Nat)) :
    Except TaffyErr (Tree × LayoutRec × List Nat) :=
  match r.cached_layout with
  | some (s, l) =>
      if !r.dirty && decide (s = sp) then .ok (t, l, []) else freshResult eng ms t sp n r sub
  | none => freshResult eng ms t sp n r sub

/-- Modelled from the spec: the caching layout driver (section 4.4), defined
over a worklist of sibling subtrees.  A clean node whose stored signature
matches the constraint is served from cache with no recursion; otherwise its
children are computed first (with the engine-derived child constraint), the
engine (or, for a childless leaf when a measure function is supplied, the
measure function) produces the box, and the result is stored with the dirty
flag cleared.  The third result component records the nodes on which the
engine or measure function ran; fuel bounds the recursion and is always
sufficient for the actual call. -/
def computeMany (eng : Engine) (ms : Option (AvailSpace → Option Nat → SizeN)) :
    Nat → Tree → AvailSpace → List Nat → Except TaffyErr (Tree × List LayoutRec × List Nat)
  | _, t, _, [] => .ok (t, [], [])
  | 0, _, _, _ :: _ => .error .NotFound
  | f + 1, t, sp, n :: rest =>
    match findNode t n with
    | none => .error .NotFound
    | some r =>
      match nodeResult eng ms t sp n r
          (computeMany eng ms f t (eng.childSpace r.style sp) r.children) with
      | .error e => .error e
      | .ok (t1, l, log1) =>
        match computeMany eng ms f t1 sp rest with
        | .error e => .error e
        | .ok (t2, ls, log2) => .ok (t2, l :: ls, log1 ++ log2)

/-- Modelled from the spec: compute_layout without a measure callback
(content-less leaves then default to zero size through the engine). -/
def compute_layout (eng : Engine) (t : Tree) (n : Nat) (sp : AvailSpace) :
    Except TaffyErr (Tree × LayoutRec × List Nat) :=
  match computeMany eng none (2 * t.next_id + 2) t sp [n] with
  | .ok (t1, l :: _, log) => .ok (t1, l, log)
  | .ok (_, [], _) => .error .NotFound
  | .error e => .error e

/-- compute_layout_with_measure: runs the driver with the binding's measure
closure (lib.rs 1404-1421) wrapped around the JS callback: an unusable
callback result is replaced by Size::ZERO inside the closure. -/
def compute_layout_with_measure (eng : Engine) (t : Tree) (n : Nat) (sp : AvailSpace)
    (cb : AvailSpace → Option Nat → Option JsVal) :
    Except TaffyErr (Tree × LayoutRec × List Nat) :=
  match computeMany eng (some (fun sp2 ctx => measure_closure (cb sp2 ctx)))
      (2 * t.next_id + 2) t sp [n] with
  | .ok (t1, l :: _, log) => .ok (t1, l, log)
  | .ok (_, [], _) => .error .NotFound
  | .error e => .error e

/-! ### Association-list lemmas -/

theorem lookupN_isSome_iff (l : List (Nat × NodeRec)) (n : Nat) :
    (lookupN l n).isSome = true ↔ n ∈ l.map Prod.fst := by
  induction l with
  | nil => simp [lookupN]
  | cons p rest ih =>
    by_cases h : p.1 = n
    · subst h; simp [lookupN]
    · simp [lookupN, h, ih, Ne.symm h]

theorem lookupN_none_iff (l : List (Nat × NodeRec)) (n : Nat) :
    lookupN l n = none ↔ n ∉ l.map Prod.fst := by
  rw [← lookupN_isSome_iff]
  cases lookupN l n <;> simp

theorem lookupN_mem {l : List (Nat × NodeRec)} {n : Nat} {r : NodeRec}
    (h : lookupN l n = some r) : (n, r) ∈ l := by
  induction l with
  | nil => simp [lookupN] at h
  | cons p rest ih =>
    by_cases hp : p.1 = n
    · subst hp
      simp [lookupN] at h
      subst h
      exact List.mem_cons_self _ _
    · simp [lookupN, hp] at h
      exact List.mem_cons_of_mem _ (ih h)

theorem lookupN_updN_self (l : List (Nat × NodeRec)) (n : Nat) (f : NodeRec → NodeRec) :
    lookupN (updN l n f) n = (lookupN l n).map f := by
  induction l with
  | nil => simp [lookupN, updN]
  | cons p rest ih =>
    by_cases h : p.1 = n
    · subst h; simp [lookupN, updN]
    · simp [lookupN, updN, h, ih]

theorem lookupN_updN_ne (l : List (Nat × NodeRec)) {n m : Nat} (f : NodeRec → NodeRec)
    (h : m ≠ n) : lookupN (updN l n f) m = lookupN l m := by
  induction l with
  | nil => simp [lookupN, updN]
  | cons p rest ih =>
    by_cases hp : p.1 = n
    · subst hp
      simp [lookupN, updN, Ne.symm h]
    · by_cases hm : p.1 = m
      · subst hm; simp [lookupN, updN, hp]
      · simp [lookupN, updN, hp, hm, ih]

theorem keys_updN (l : List (Nat × NodeRec)) (n : Nat) (f : NodeRec → NodeRec) :
    (updN l n f).map Prod.fst = l.map Prod.fst := by
  induction l with
  | nil => simp [updN]
  | cons p rest ih =>
    by_cases h : p.1 = n
    · subst h; simp [updN]
    · simp [updN, h, ih]

theorem eraseN_sublist (l : List (Nat × NodeRec)) (n : Nat) : (eraseN l n).Sublist l := by
  induction l with
  | nil => simp [eraseN]
  | cons p rest ih =>
    by_cases h : p.1 = n
    · simp only [eraseN, if_pos h]
      exact ih.cons _
    · simp only [eraseN, if_neg h]
      exact ih.cons₂ _

theorem lookupN_eraseN_self (l : List (Nat × NodeRec)) (n : Nat) :
    lookupN (eraseN l n) n = none := by
  induction l with
  | nil => simp [lookupN, eraseN]
  | cons p rest ih =>
    by_cases h : p.1 = n
    · simpa [eraseN, h]
    · simp [eraseN, lookupN, h, ih]

theorem lookupN_eraseN_ne (l : List (Nat × NodeRec)) {n m : Nat}
    (h : m ≠ n) : lookupN (eraseN l n) m = lookupN l m := by
  induction l with
  | nil => simp [lookupN, eraseN]
  | cons p rest ih =>
    by_cases hp : p.1 = n
    · subst hp
      simp [eraseN, lookupN, Ne.symm h, ih]
    · simp [eraseN, lookupN, hp, ih]

/-! ### Tree accessor lemmas -/

theorem live_iff_mem_keys (t : Tree) (n : Nat) :
    live t n = true ↔ n ∈ t.nodes.map Prod.fst := by
  simp [live, findNode, lookupN_isSome_iff]

theorem findNode_mem {t : Tree} {n : Nat} {r : NodeRec}
    (h : findNode t n = some r) : (n, r) ∈ t.nodes := lookupN_mem h

theorem next_id_updateNode (t : Tree) (n : Nat) (f : NodeRec → NodeRec) :
    (updateNode t n f).next_id = t.next_id := rfl

theorem keys_updateNode (t : Tree) (n : Nat) (f : NodeRec → NodeRec) :
    (updateNode t n f).nodes.map Prod.fst = t.nodes.map Prod.fst := keys_updN _ _ _

theorem findNode_updateNode_self (t : Tree) (n : Nat) (f : NodeRec → NodeRec) :
    findNode (updateNode t n f) n = (findNode t n).map f := lookupN_updN_self _ _ _

theorem findNode_updateNode_ne (t : Tree) {n m : Nat} (f : NodeRec → NodeRec)
    (h : m ≠ n) : findNode (updateNode t n f) m = findNode t m := lookupN_updN_ne _ _ h

theorem live_updateNode (t : Tree) (n m : Nat) (f : NodeRec → NodeRec) :
    live (updateNode t n f) m = live t m := by
  by_cases h : m = n
  · subst h
    simp [live, findNode_updateNode_self]
  · simp [live, findNode_updateNode_ne t f h]

/-! ### Ancestor-chain lemmas -/

theorem ancChain_succ_none {t : Tree} {n : Nat} (f : Nat) (hp : parentOf t n = none) :
    ancChain t (f + 1) n = [] := by
  simp [ancChain, hp]

theorem ancChain_succ_some {t : Tree} {n q : Nat} (f : Nat) (hp : parentOf t n = some q) :
    ancChain t (f + 1) n = q :: ancChain t f q := by
  simp [ancChain, hp]

theorem rootedB_succ_none {t : Tree} {n : Nat} (f : Nat) (hp : parentOf t n = none) :
    rootedB t (f + 1) n = true := by
  simp [rootedB, hp]

theorem rootedB_succ_some {t : Tree} {n q : Nat} (f : Nat) (hp : parentOf t n = some q) :
    rootedB t (f + 1) n = rootedB t f q := by
  simp [rootedB, hp]

theorem rootedB_mono (t : Tree) :
    ∀ f f' n, f ≤ f' → rootedB t f n = true → rootedB t f' n = true := by
  intro f
  induction f with
  | zero => intro f' n _ h; simp [rootedB] at h
  | succ f ih =>
    intro f' n hle h
    cases f' with
    | zero => omega
    | succ f'' =>
      cases hp : parentOf t n with
      | none => rw [rootedB_succ_none f'' hp]
      | some q =>
        rw [rootedB_succ_some f hp] at h
        rw [rootedB_succ_some f'' hp]
        exact ih f'' q (Nat.le_of_succ_le_succ hle) h

theorem ancChain_stab (t : Tree) :
    ∀ f f' n, f ≤ f' → rootedB t f n = true → ancChain t f' n = ancChain t f n := by
  intro f
  induction f with
  | zero => intro f' n _ h; simp [rootedB] at h
  | succ f ih =>
    intro f' n hle h
    cases f' with
    | zero => omega
    | succ f'' =>
      cases hp : parentOf t n with
      | none => rw [ancChain_succ_none f'' hp, ancChain_succ_none f hp]
      | some q =>
        rw [rootedB_succ_some f hp] at h
        rw [ancChain_succ_some f'' hp, ancChain_succ_some f hp,
          ih f'' q (Nat.le_of_succ_le_succ hle) h]

theorem rooted_of_mem (t : Tree) :
    ∀ f n x, rootedB t f n = true → x ∈ ancChain t f n → rootedB t f x = true := by
  intro f
  induction f with
  | zero => intro n x _ hx; simp [ancChain] at hx
  | succ f ih =>
    intro n x h hx
    cases hp : parentOf t n with
    | none => rw [ancChain_succ_none f hp] at hx; simp at hx
    | some q =>
      rw [rootedB_succ_some f hp] at h
      rw [ancChain_succ_some f hp] at hx
      rcases List.mem_cons.mp hx with rfl | hx'
      · exact rootedB_mono t f (f + 1) x (Nat.le_succ f) h
      · exact rootedB_mono t f (f + 1) x (Nat.le_succ f) (ih q x h hx')

theorem len_anc_lt (t : Tree) :
    ∀ f n, rootedB t f n = true → (ancChain t f n).length < f := by
  intro f
  induction f with
  | zero => intro n h; simp [rootedB] at h
  | succ f ih =>
    intro n h
    cases hp : parentOf t n with
    | none => rw [ancChain_succ_none f hp]; simp
    | some q =>
      rw [rootedB_succ_some f hp] at h
      rw [ancChain_succ_some f hp, List.length_cons]
      exact Nat.succ_lt_succ (ih q h)

theorem rootedB_of_len (t : Tree) :
    ∀ f f' n, rootedB t f n = true → (ancChain t f n).length < f' → rootedB t f' n = true := by
  intro f
  induction f with
  | zero => intro f' n h _; simp [rootedB] at h
  | succ f ih =>
    intro f' n h hlen
    cases hp : parentOf t n with
    | none =>
      rw [ancChain_succ_none f hp] at hlen
      simp only [List.length_nil] at hlen
      cases f' with
      | zero => omega
      | succ f'' => rw [rootedB_succ_none f'' hp]
    | some q =>
      rw [rootedB_succ_some f hp] at h
      rw [ancChain_succ_some f hp, List.length_cons] at hlen
      cases f' with
      | zero => omega
      | succ f'' =>
        rw [rootedB_succ_some f'' hp]
        exact ih f'' q h (by omega)

theorem anc_tail_sub (t : Tree) :
    ∀ f n x, rootedB t f n = true → x ∈ ancChain t f n →
      ancChain t f x ⊆ ancChain t f n := by
  intro f
  induction f with
  | zero => intro n x _ hx; simp [ancChain] at hx
  | succ f ih =>
    intro n x h hx
    cases hp : parentOf t n with
    | none => rw [ancChain_succ_none f hp] at hx; simp at hx
    | some q =>
      rw [rootedB_succ_some f hp] at h
      rw [ancChain_succ_some f hp] at hx ⊢
      rcases List.mem_cons.mp hx with rfl | hx'
      · rw [ancChain_stab t f (f + 1) x (Nat.le_succ f) h]
        exact List.subset_cons_of_subset _ (List.Subset.refl _)
      · have hrx : rootedB t f x = true := rooted_of_mem t f q x h hx'
        rw [ancChain_stab t f (f + 1) x (Nat.le_succ f) hrx]
        exact List.subset_cons_of_subset _ (ih q x h hx')

theorem len_tail_lt (t : Tree) :
    ∀ f n x, rootedB t f n = true → x ∈ ancChain t f n →
      (ancChain t f x).length < (ancChain t f n).length := by
  intro f
  induction f with
  | zero => intro n x _ hx; simp [ancChain] at hx
  | succ f ih =>
    intro n x h hx
    cases hp : parentOf t n with
    | none => rw [ancChain_succ_none f hp] at hx; simp at hx
    | some q =>
      rw [rootedB_succ_some f hp] at h
      rw [ancChain_succ_some f hp] at hx ⊢
      rcases List.mem_cons.mp hx with rfl | hx'
      · rw [ancChain_stab t f (f + 1) x (Nat.le_succ f) h]
        simp
      · have hrx : rootedB t f x = true := rooted_of_mem t f q x h hx'
        rw [ancChain_stab t f (f + 1) x (Nat.le_succ f) hrx]
        have := ih q x h hx'
        simp only [List.length_cons]
        omega

theorem not_mem_self_anc (t : Tree) (f n : Nat) (h : rootedB t f n = true) :
    n ∉ ancChain t f n := fun hm => absurd (len_tail_lt t f n n h hm) (lt_irrefl _)

theorem nodup_anc (t : Tree) :
    ∀ f n, rootedB t f n = true → (n :: ancChain t f n).Nodup := by
  intro f
  induction f with
  | zero => intro n h; simp [rootedB] at h
  | succ f ih =>
    intro n h
    have hn : n ∉ ancChain t (f + 1) n := not_mem_self_anc t (f + 1) n h
    cases hp : parentOf t n with
    | none => rw [ancChain_succ_none f hp]; simp
    | some q =>
      rw [rootedB_succ_some f hp] at h
      rw [ancChain_succ_some f hp] at hn ⊢
      refine List.nodup_cons.mpr ⟨hn, ?_⟩
      exact ih q h

theorem anc_linear (t : Tree) :
    ∀ f n x y, rootedB t f n = true → x ∈ ancChain t f n → y ∈ ancChain t f n →
      x = y ∨ x ∈ ancChain t f y ∨ y ∈ ancChain t f x := by
  intro f
  induction f with
  | zero => intro n x y _ hx _; simp [ancChain] at hx
  | succ f ih =>
    intro n x y h hx hy
    cases hp : parentOf t n with
    | none => rw [ancChain_succ_none f hp] at hx; simp at hx
    | some q =>
      rw [rootedB_succ_some f hp] at h
      rw [ancChain_succ_some f hp] at hx hy
      rcases List.mem_cons.mp hx with rfl | hx' <;> rcases List.mem_cons.mp hy with rfl | hy'
      · exact Or.inl rfl
      · refine Or.inr (Or.inr ?_)
        rw [ancChain_stab t f (f + 1) x (Nat.le_succ f) h]
        exact hy'
      · refine Or.inr (Or.inl ?_)
        rw [ancChain_stab t f (f + 1) y (Nat.le_succ f) h]
        exact hx'
      · rcases ih q x y h hx' hy' with h1 | h2 | h3
        · exact Or.inl h1
        · refine Or.inr (Or.inl ?_)
          have hry : rootedB t f y = true := rooted_of_mem t f q y h hy'
          rw [ancChain_stab t f (f + 1) y (Nat.le_succ f) hry]
          exact h2
        · refine Or.inr (Or.inr ?_)
          have hrx : rootedB t f x = true := rooted_of_mem t f q x h hx'
          rw [ancChain_stab t f (f + 1) x (Nat.le_succ f) hrx]
          exact h3

theorem anc_live (t : Tree) (hpar : ∀ m q, parentOf t m = some q → live t q = true) :
    ∀ f n x, x ∈ ancChain t f n → live t x = true := by
  intro f
  induction f with
  | zero => intro n x hx; simp [ancChain] at hx
  | succ f ih =>
    intro n x hx
    cases hp : parentOf t n with
    | none => rw [ancChain_succ_none f hp] at hx; simp at hx
    | some q =>
      rw [ancChain_succ_some f hp] at hx
      rcases List.mem_cons.mp hx with rfl | hx'
      · exact hpar n x hp
      · exact ih q x hx'

theorem nodup_lt_length {l : List Nat} {N : Nat} (hn : l.Nodup) (hb : ∀ x ∈ l, x < N) :
    l.length ≤ N := by
  have h1 : l.toFinset.card = l.length := List.toFinset_card_of_nodup hn
  have h2 : l.toFinset ⊆ Finset.range N := by
    intro x hx
    simp only [List.mem_toFinset] at hx
    exact Finset.mem_range.mpr (hb x hx)
  have h3 := Finset.card_le_card h2
  rw [h1, Finset.card_range] at h3
  exact h3

theorem ancChain_congr {t t' : Tree} (h : ∀ m, parentOf t' m = parentOf t m) :
    ∀ f n, ancChain t' f n = ancChain t f n := by
  intro f
  induction f with
  | zero => intro n; rfl
  | succ f ih =>
    intro n
    cases hp : parentOf t n with
    | none => rw [ancChain_succ_none f (h n ▸ hp), ancChain_succ_none f hp]
    | some q =>
      rw [ancChain_succ_some f (h n ▸ hp), ancChain_succ_some f hp, ih q]

theorem rootedB_congr {t t' : Tree} (h : ∀ m, parentOf t' m = parentOf t m) :
    ∀ f n, rootedB t' f n = rootedB t f n := by
  intro f
  induction f with
  | zero => intro n; rfl
  | succ f ih =>
    intro n
    cases hp : parentOf t n with
    | none => rw [rootedB_succ_none f (h n ▸ hp), rootedB_succ_none f hp]
    | some q =>
      rw [rootedB_succ_some f (h n ▸ hp), rootedB_succ_some f hp, ih q]

theorem ancChain_avoid {t t' : Tree} {c : Nat}
    (h : ∀ m, m ≠ c → parentOf t' m = parentOf t m) :
    ∀ f n, c ∉ (n :: ancChain t f n) →
      ancChain t' f n = ancChain t f n ∧ rootedB t' f n = rootedB t f n := by
  intro f
  induction f with
  | zero => intro n _; exact ⟨rfl, rfl⟩
  | succ f ih =>
    intro n hc
    have hnc : n ≠ c := fun he => hc (he ▸ List.mem_cons_self n _)
    have hp' : parentOf t' n = parentOf t n := h n hnc
    cases hp : parentOf t n with
    | none =>
      rw [ancChain_succ_none f (hp' ▸ hp), ancChain_succ_none f hp,
        rootedB_succ_none f (hp' ▸ hp), rootedB_succ_none f hp]
      exact ⟨rfl, rfl⟩
    | some q =>
      have hcq : c ∉ (q :: ancChain t f q) := by
        intro hm
        apply hc
        rw [ancChain_succ_some f hp]
        exact List.mem_cons_of_mem n hm
      have hih := ih q hcq
      constructor
      · rw [ancChain_succ_some f (hp' ▸ hp), ancChain_succ_some f hp, hih.1]
      · rw [rootedB_succ_some f (hp' ▸ hp), rootedB_succ_some f hp, hih.2]

theorem rootedB_of_edge_sub {t t' : Tree}
    (h : ∀ m q, parentOf t' m = some q → parentOf t m = some q) :
    ∀ f n, rootedB t f n = true → rootedB t' f n = true := by
  intro f
  induction f with
  | zero => intro n hr; simp [rootedB] at hr
  | succ f ih =>
    intro n hr
    cases hp' : parentOf t' n with
    | none => rw [rootedB_succ_none f hp']
    | some q =>
      rw [rootedB_succ_some f hp']
      rw [rootedB_succ_some f (h n q hp')] at hr
      exact ih q hr

/-! ### insertAt lemmas -/

theorem mem_insertAt (l : List Nat) (pos c x : Nat) :
    x ∈ insertAt l pos c ↔ x = c ∨ x ∈ l := by
  induction l generalizing pos with
  | nil => cases pos <;> simp [insertAt]
  | cons a rest ih =>
    cases pos with
    | zero => simp [insertAt]
    | succ pos =>
      simp only [insertAt, List.mem_cons, ih]
      tauto

theorem self_mem_insertAt (l : List Nat) (pos c : Nat) : c ∈ insertAt l pos c :=
  (mem_insertAt l pos c c).mpr (Or.inl rfl)

theorem nodup_insertAt {l : List Nat} (pos : Nat) {c : Nat}
    (hn : l.Nodup) (hc : c ∉ l) : (insertAt l pos c).Nodup := by
  induction l generalizing pos with
  | nil => cases pos <;> simp [insertAt]
  | cons a rest ih =>
    cases pos with
    | zero =>
      refine List.nodup_cons.mpr ⟨hc, hn⟩
    | succ pos =>
      have hna : a ∉ rest := (List.nodup_cons.mp hn).1
      have hca : c ∉ rest := fun h => hc (List.mem_cons_of_mem a h)
      have hac : a ≠ c := fun he => hc (he ▸ List.mem_cons_self a rest)
      refine List.nodup_cons.mpr ⟨?_, ih pos (List.nodup_cons.mp hn).2 hca⟩
      intro hmem
      rcases (mem_insertAt rest pos c a).mp hmem with he | hmem'
      · exact hac he
      · exact hna hmem'

/-! ### Invariant unpacking -/

theorem nodeOK_iff (t : Tree) (n : Nat) :
    nodeOK t n ↔
      n < t.next_id ∧ (childrenOf t n).Nodup
      ∧ (∀ c ∈ childrenOf t n, live t c = true ∧ parentOf t c = some n)
      ∧ (∀ q, parentOf t n = some q → live t q = true ∧ n ∈ childrenOf t q)
      ∧ rootedB t t.next_id n = true := by
  unfold nodeOK
  constructor
  · rintro ⟨h1, h2, h3, h4, h5⟩
    refine ⟨h1, h2, h3, ?_, h5⟩
    intro q hq
    apply h4
    rw [hq]
    exact List.mem_cons_self q []
  · rintro ⟨h1, h2, h3, h4, h5⟩
    refine ⟨h1, h2, h3, ?_, h5⟩
    intro q hq
    apply h4
    cases hp : parentOf t n with
    | none => rw [hp] at hq; simp at hq
    | some x =>
      rw [hp] at hq
      simp only [Option.toList_some, List.mem_singleton] at hq
      rw [hq]

theorem Inv.nodeOKof {t : Tree} (h : Inv t) {n : Nat} (hl : live t n = true) :
    nodeOK t n := h.2 n ((live_iff_mem_keys t n).mp hl)

theorem Inv.live_lt {t : Tree} (h : Inv t) {n : Nat} (hl : live t n = true) :
    n < t.next_id := ((nodeOK_iff t n).mp (h.nodeOKof hl)).1

theorem Inv.child_nodup {t : Tree} (h : Inv t) {n : Nat} (hl : live t n = true) :
    (childrenOf t n).Nodup := ((nodeOK_iff t n).mp (h.nodeOKof hl)).2.1

theorem Inv.rooted {t : Tree} (h : Inv t) {n : Nat} (hl : live t n = true) :
    rootedB t t.next_id n = true := ((nodeOK_iff t n).mp (h.nodeOKof hl)).2.2.2.2

theorem live_of_parent {t : Tree} {m q : Nat} (hq : parentOf t m = some q) :
    live t m = true := by
  rw [parentOf] at hq
  cases hfind : findNode t m with
  | none => rw [hfind] at hq; simp at hq
  | some r => simp [live, hfind]

theorem live_of_children_mem {t : Tree} {p c : Nat} (hc : c ∈ childrenOf t p) :
    live t p = true := by
  rw [childrenOf] at hc
  cases hfind : findNode t p with
  | none => rw [hfind] at hc; simp at hc
  | some r => simp [live, hfind]

theorem Inv.parent_live {t : Tree} (h : Inv t) :
    ∀ m q, parentOf t m = some q → live t q = true := by
  intro m q hq
  exact (((nodeOK_iff t m).mp (h.nodeOKof (live_of_parent hq))).2.2.2.1 q hq).1

theorem Inv.parent_listed {t : Tree} (h : Inv t) {m q : Nat}
    (hq : parentOf t m = some q) : m ∈ childrenOf t q :=
  (((nodeOK_iff t m).mp (h.nodeOKof (live_of_parent hq))).2.2.2.1 q hq).2

theorem Inv.child_back {t : Tree} (h : Inv t) {p c : Nat} (hc : c ∈ childrenOf t p) :
    live t c = true ∧ parentOf t c = some p :=
  ((nodeOK_iff t p).mp (h.nodeOKof (live_of_children_mem hc))).2.2.1 c hc

theorem Inv.anc_is_live {t : Tree} (h : Inv t) {f n x : Nat}
    (hx : x ∈ ancChain t f n) : live t x = true :=
  anc_live t h.parent_live f n x hx

theorem Inv.pos_next_id {t : Tree} (h : Inv t) {n : Nat} (hl : live t n = true) :
    ∃ F, t.next_id = F + 1 := ⟨t.next_id - 1, by have := h.live_lt hl; omega⟩

theorem Inv.child_not_anc {t : Tree} (h : Inv t) {p c : Nat} (hc : c ∈ childrenOf t p) :
    c ∉ (p :: ancestors t p) := by
  have hlivep : live t p = true := live_of_children_mem hc
  have hcb := h.child_back hc
  have hrootc : rootedB t t.next_id c = true := h.rooted hcb.1
  have hrootp : rootedB t t.next_id p = true := h.rooted hlivep
  obtain ⟨F, hF⟩ := h.pos_next_id hcb.1
  have hpmem : p ∈ ancChain t t.next_id c := by
    rw [hF, ancChain_succ_some F hcb.2]
    exact List.mem_cons_self _ _
  intro hmem
  rcases List.mem_cons.mp hmem with rfl | hmem'
  · exact not_mem_self_anc t _ c hrootc hpmem
  · rw [ancestors] at hmem'
    exact not_mem_self_anc t _ p hrootp (anc_tail_sub t t.next_id p c hrootp hmem' hpmem)

/-! ### updateNode field-preservation lemmas -/

theorem parentOf_updateNode_ne (t : Tree) {k m : Nat} (f : NodeRec → NodeRec)
    (h : m ≠ k) : parentOf (updateNode t k f) m = parentOf t m := by
  rw [parentOf, parentOf, findNode_updateNode_ne t f h]

theorem childrenOf_updateNode_ne (t : Tree) {k m : Nat} (f : NodeRec → NodeRec)
    (h : m ≠ k) : childrenOf (updateNode t k f) m = childrenOf t m := by
  rw [childrenOf, childrenOf, findNode_updateNode_ne t f h]

theorem parentOf_updateNode_keep (t : Tree) (k : Nat) {f : NodeRec → NodeRec}
    (hf : ∀ r, (f r).parent = r.parent) (m : Nat) :
    parentOf (updateNode t k f) m = parentOf t m := by
  by_cases h : m = k
  · subst h
    rw [parentOf, parentOf, findNode_updateNode_self]
    cases findNode t m with
    | none => rfl
    | some r => simp [hf]
  · exact parentOf_updateNode_ne t f h

theorem childrenOf_updateNode_keep (t : Tree) (k : Nat) {f : NodeRec → NodeRec}
    (hf : ∀ r, (f r).children = r.children) (m : Nat) :
    childrenOf (updateNode t k f) m = childrenOf t m := by
  by_cases h : m = k
  · subst h
    rw [childrenOf, childrenOf, findNode_updateNode_self]
    cases findNode t m with
    | none => rfl
    | some r => simp [hf]
  · exact childrenOf_updateNode_ne t f h

/-! ### detach characterization -/

theorem next_id_detach (t : Tree) (c : Nat) : (detach t c).next_id = t.next_id := by
  rw [detach]
  cases parentOf t c <;> rfl

theorem keys_detach (t : Tree) (c : Nat) :
    (detach t c).nodes.map Prod.fst = t.nodes.map Prod.fst := by
  rw [detach]
  cases parentOf t c with
  | none => rfl
  | some p => rw [keys_updateNode, keys_updateNode]

theorem live_detach (t : Tree) (c m : Nat) : live (detach t c) m = live t m := by
  rw [detach]
  cases parentOf t c with
  | none => rfl
  | some p => rw [live_updateNode, live_updateNode]

theorem parentOf_detach_self (t : Tree) (c : Nat) : parentOf (detach t c) c = none := by
  rw [detach]
  cases hp : parentOf t c with
  | none => exact hp
  | some p =>
    rw [parentOf, findNode_updateNode_self]
    cases findNode (updateNode t p fun r => { r with children := r.children.erase c }) c <;> simp

theorem parentOf_detach_ne (t : Tree) {c m : Nat} (h : m ≠ c) :
    parentOf (detach t c) m = parentOf t m := by
  cases hp : parentOf t c with
  | none =>
    have hd : detach t c = t := by rw [detach, hp]
    rw [hd]
  | some p =>
    have hd : detach t c =
        updateNode (updateNode t p fun r => { r with children := r.children.erase c })
          c fun r => { r with parent := none } := by
      rw [detach, hp]
    rw [hd, parentOf_updateNode_ne _ _ h]
    refine parentOf_updateNode_keep t p ?_ m
    intro r
    rfl

theorem childrenOf_detach_parent (t : Tree) {c p : Nat} (hp : parentOf t c = some p) :
    childrenOf (detach t c) p = (childrenOf t p).erase c := by
  have hd : detach t c =
      updateNode (updateNode t p fun r => { r with children := r.children.erase c })
        c fun r => { r with parent := none } := by
    rw [detach, hp]
  rw [hd]
  have h1 : childrenOf
      (updateNode (updateNode t p fun r => { r with children := r.children.erase c })
        c fun r => { r with parent := none }) p =
      childrenOf (updateNode t p fun r => { r with children := r.children.erase c }) p := by
    refine childrenOf_updateNode_keep _ c ?_ p
    intro r
    rfl
  rw [h1, childrenOf, childrenOf, findNode_updateNode_self]
  cases findNode t p <;> simp

theorem childrenOf_detach_other (t : Tree) {c m : Nat}
    (h : ∀ p, parentOf t c = some p → m ≠ p) :
    childrenOf (detach t c) m = childrenOf t m := by
  cases hp : parentOf t c with
  | none =>
    have hd : detach t c = t := by rw [detach, hp]
    rw [hd]
  | some p =>
    have hd : detach t c =
        updateNode (updateNode t p fun r => { r with children := r.children.erase c })
          c fun r => { r with parent := none } := by
      rw [detach, hp]
    rw [hd]
    have h1 : childrenOf
        (updateNode (updateNode t p fun r => { r with children := r.children.erase c })
          c fun r => { r with parent := none }) m =
        childrenOf (updateNode t p fun r => { r with children := r.children.erase c }) m := by
      refine childrenOf_updateNode_keep _ c ?_ m
      intro r
      rfl
    rw [h1]
    exact childrenOf_updateNode_ne t _ (h p hp)

/-! ### attach characterization -/

theorem next_id_attach (t : Tree) (p c pos : Nat) : (attach t p c pos).next_id = t.next_id := rfl

theorem keys_attach (t : Tree) (p c pos : Nat) :
    (attach t p c pos).nodes.map Prod.fst = t.nodes.map Prod.fst := by
  rw [attach, keys_updateNode, keys_updateNode]

theorem live_attach (t : Tree) (p c pos m : Nat) : live (attach t p c pos) m = live t m := by
  rw [attach, live_updateNode, live_updateNode]

theorem parentOf_attach_self (t : Tree) (p c pos : Nat) (hc : live t c = true) :
    parentOf (attach t p c pos) c = some p := by
  rw [attach, parentOf, findNode_updateNode_self]
  have hc2 : live (updateNode t p fun r => { r with children := insertAt r.children pos c }) c = true := by
    rw [live_updateNode]; exact hc
  rw [live] at hc2
  cases hfind : findNode (updateNode t p fun r => { r with children := insertAt r.children pos c }) c with
  | none => rw [hfind] at hc2; simp at hc2
  | some r => simp

theorem parentOf_attach_ne (t : Tree) {p c m : Nat} (pos : Nat) (h : m ≠ c) :
    parentOf (attach t p c pos) m = parentOf t m := by
  rw [attach, parentOf_updateNode_ne _ _ h]
  refine parentOf_updateNode_keep t p ?_ m
  intro r
  rfl

theorem childrenOf_attach_parent (t : Tree) {p c : Nat} (pos : Nat) (hpc : p ≠ c)
    (hp : live t p = true) :
    childrenOf (attach t p c pos) p = insertAt (childrenOf t p) pos c := by
  rw [attach, childrenOf_updateNode_ne _ _ hpc]
  rw [childrenOf, childrenOf, findNode_updateNode_self]
  rw [live] at hp
  cases hfind : findNode t p with
  | none => rw [hfind] at hp; simp at hp
  | some r => simp

theorem childrenOf_attach_other (t : Tree) {p c m : Nat} (pos : Nat) (h : m ≠ p) :
    childrenOf (attach t p c pos) m = childrenOf t m := by
  rw [attach]
  have h1 : childrenOf
      (updateNode (updateNode t p fun r => { r with children := insertAt r.children pos c })
        c fun r => { r with parent := some p }) m =
      childrenOf (updateNode t p fun r => { r with children := insertAt r.children pos c }) m := by
    refine childrenOf_updateNode_keep _ c ?_ m
    intro r
    rfl
  rw [h1]
  exact childrenOf_updateNode_ne t _ h

/-! ### More chain utilities -/

theorem ancChain_mono_sub (t : Tree) :
    ∀ f f' n, f ≤ f' → ancChain t f n ⊆ ancChain t f' n := by
  intro f
  induction f with
  | zero => intro f' n _; simp [ancChain]
  | succ f ih =>
    intro f' n hle
    cases f' with
    | zero => omega
    | succ f'' =>
      cases hp : parentOf t n with
      | none => rw [ancChain_succ_none f hp]; simp
      | some q =>
        rw [ancChain_succ_some f hp, ancChain_succ_some f'' hp]
        exact List.cons_subset_cons q (ih f'' q (Nat.le_of_succ_le_succ hle))

theorem anc_parent_none {t : Tree} {c : Nat} (hp : parentOf t c = none) :
    ∀ f, ancChain t f c = [] := by
  intro f
  cases f with
  | zero => rfl
  | succ f => exact ancChain_succ_none f hp

/-! ### setDirtyList and mark_dirty_core accessor lemmas -/

theorem next_id_setDirtyList (t : Tree) (ns : List Nat) :
    (setDirtyList t ns).next_id = t.next_id := by
  induction ns generalizing t with
  | nil => rfl
  | cons n rest ih => rw [setDirtyList, ih]; rfl

theorem keys_setDirtyList (t : Tree) (ns : List Nat) :
    (setDirtyList t ns).nodes.map Prod.fst = t.nodes.map Prod.fst := by
  induction ns generalizing t with
  | nil => rfl
  | cons n rest ih => rw [setDirtyList, ih, keys_updateNode]

theorem parentOf_setDirtyList (t : Tree) (ns : List Nat) (m : Nat) :
    parentOf (setDirtyList t ns) m = parentOf t m := by
  induction ns generalizing t with
  | nil => rfl
  | cons n rest ih =>
    rw [setDirtyList, ih]
    refine parentOf_updateNode_keep t n ?_ m
    intro r
    rfl

theorem childrenOf_setDirtyList (t : Tree) (ns : List Nat) (m : Nat) :
    childrenOf (setDirtyList t ns) m = childrenOf t m := by
  induction ns generalizing t with
  | nil => rfl
  | cons n rest ih =>
    rw [setDirtyList, ih]
    refine childrenOf_updateNode_keep t n ?_ m
    intro r
    rfl

theorem live_setDirtyList (t : Tree) (ns : List Nat) (m : Nat) :
    live (setDirtyList t ns) m = live t m := by
  induction ns generalizing t with
  | nil => rfl
  | cons n rest ih => rw [setDirtyList, ih, live_updateNode]

theorem dirtyOf_setDirtyList_not_mem (t : Tree) (ns : List Nat) {a : Nat} (ha : a ∉ ns) :
    dirtyOf (setDirtyList t ns) a = dirtyOf t a := by
  induction ns generalizing t with
  | nil => rfl
  | cons n rest ih =>
    have han : a ≠ n := fun he => ha (he ▸ List.mem_cons_self a rest)
    have har : a ∉ rest := fun hm => ha (List.mem_cons_of_mem n hm)
    rw [setDirtyList, ih _ har, dirtyOf, dirtyOf, findNode_updateNode_ne t _ han]

theorem dirtyOf_setDirtyList_mem (t : Tree) (ns : List Nat) {a : Nat}
    (ha : a ∈ ns) (hl : live t a = true) :
    dirtyOf (setDirtyList t ns) a = some true := by
  induction ns generalizing t with
  | nil => simp at ha
  | cons n rest ih =>
    rw [setDirtyList]
    by_cases har : a ∈ rest
    · exact ih _ har (by rw [live_updateNode]; exact hl)
    · have han : a = n := by
        rcases List.mem_cons.mp ha with he | hm
        · exact he
        · exact absurd hm har
      subst han
      rw [dirtyOf_setDirtyList_not_mem _ _ har, dirtyOf, findNode_updateNode_self]
      rw [live] at hl
      cases hfind : findNode t a with
      | none => rw [hfind] at hl; simp at hl
      | some r => simp

theorem next_id_mark_dirty_core (t : Tree) (n : Nat) :
    (mark_dirty_core t n).next_id = t.next_id := next_id_setDirtyList _ _

theorem keys_mark_dirty_core (t : Tree) (n : Nat) :
    (mark_dirty_core t n).nodes.map Prod.fst = t.nodes.map Prod.fst := keys_setDirtyList _ _

theorem parentOf_mark_dirty_core (t : Tree) (n m : Nat) :
    parentOf (mark_dirty_core t n) m = parentOf t m := parentOf_setDirtyList _ _ _

theorem childrenOf_mark_dirty_core (t : Tree) (n m : Nat) :
    childrenOf (mark_dirty_core t n) m = childrenOf t m := childrenOf_setDirtyList _ _ _

theorem live_mark_dirty_core (t : Tree) (n m : Nat) :
    live (mark_dirty_core t n) m = live t m := live_setDirtyList _ _ _

/-! ### Invariant transfer and preservation -/

theorem Inv_transfer {t t' : Tree} (h : Inv t)
    (hnext : t'.next_id = t.next_id)
    (hkeys : t'.nodes.map Prod.fst = t.nodes.map Prod.fst)
    (hpar : ∀ m, parentOf t' m = parentOf t m)
    (hch : ∀ m, childrenOf t' m = childrenOf t m) : Inv t' := by
  have hlive : ∀ m, live t' m = live t m := by
    intro m
    rcases hb : live t m with hfalse | htrue
    · rcases hb' : live t' m with h1 | h2
      · rfl
      · rw [live_iff_mem_keys, hkeys, ← live_iff_mem_keys] at hb'
        rw [hb] at hb'
        exact hb'.symm
    · rw [live_iff_mem_keys, ← hkeys, ← live_iff_mem_keys] at hb
      exact hb
  constructor
  · rw [hkeys]
    exact h.1
  · intro k hk
    rw [hkeys] at hk
    have hOK := (nodeOK_iff t k).mp (h.2 k hk)
    obtain ⟨h1, h2, h3, h4, h5⟩ := hOK
    rw [nodeOK_iff]
    refine ⟨by rw [hnext]; exact h1, by rw [hch]; exact h2, ?_, ?_, ?_⟩
    · intro x hx
      rw [hch] at hx
      have hx2 := h3 x hx
      rw [hlive x, hpar x]
      exact hx2
    · intro q hq
      rw [hpar] at hq
      have hq2 := h4 q hq
      rw [hlive q, hch q]
      exact hq2
    · rw [hnext, rootedB_congr hpar]
      exact h5

theorem Inv.mark_dirty_core_inv {t : Tree} (h : Inv t) (n : Nat) :
    Inv (mark_dirty_core t n) :=
  Inv_transfer h (next_id_mark_dirty_core t n) (keys_mark_dirty_core t n)
    (parentOf_mark_dirty_core t n) (childrenOf_mark_dirty_core t n)

theorem Inv.detach_inv {t : Tree} (h : Inv t) (c : Nat) : Inv (detach t c) := by
  cases hp : parentOf t c with
  | none =>
    have hd : detach t c = t := by rw [detach, hp]
    rw [hd]
    exact h
  | some p =>
    have hcp : c ∈ childrenOf t p := h.parent_listed hp
    have hnotanc := h.child_not_anc hcp
    have hcnep : c ≠ p := fun he => hnotanc (he ▸ List.mem_cons_self p _)
    have hchp : childrenOf (detach t c) p = (childrenOf t p).erase c :=
      childrenOf_detach_parent t hp
    have hcho : ∀ m, m ≠ p → childrenOf (detach t c) m = childrenOf t m := by
      intro m hm
      exact childrenOf_detach_other t (fun p' hp' => by rw [hp] at hp'; injection hp' with he; exact he ▸ hm)
    have hedge : ∀ m q, parentOf (detach t c) m = some q → parentOf t m = some q := by
      intro m q hq
      by_cases hmc : m = c
      · subst hmc
        rw [parentOf_detach_self] at hq
        exact absurd hq (by simp)
      · rw [parentOf_detach_ne t hmc] at hq
        exact hq
    constructor
    · rw [keys_detach]
      exact h.1
    · intro k hk
      rw [keys_detach] at hk
      have hlk : live t k = true := (live_iff_mem_keys t k).mpr hk
      have hOK := (nodeOK_iff t k).mp (h.2 k hk)
      obtain ⟨h1, h2, h3, h4, h5⟩ := hOK
      rw [nodeOK_iff]
      have hnodup_p : (childrenOf t p).Nodup := h.child_nodup (live_of_children_mem hcp)
      refine ⟨?_, ?_, ?_, ?_, ?_⟩
      · rw [next_id_detach]
        exact h1
      · by_cases hkp : k = p
        · subst hkp
          rw [hchp]
          exact h2.erase c
        · rw [hcho k hkp]
          exact h2
      · intro x hx
        by_cases hkp : k = p
        · subst hkp
          rw [hchp] at hx
          have hxne : x ≠ c ∧ x ∈ childrenOf t k := (List.Nodup.mem_erase_iff hnodup_p).mp hx
          have hx2 := h3 x hxne.2
          rw [live_detach, parentOf_detach_ne t hxne.1]
          exact hx2
        · rw [hcho k hkp] at hx
          have hx2 := h3 x hx
          have hxc : x ≠ c := by
            intro he
            subst he
            rw [hx2.2] at hp
            injection hp with he2
            exact hkp he2
          rw [live_detach, parentOf_detach_ne t hxc]
          exact hx2
      · intro q hq
        by_cases hkc : k = c
        · subst hkc
          rw [parentOf_detach_self] at hq
          exact absurd hq (by simp)
        · rw [parentOf_detach_ne t hkc] at hq
          have hq2 := h4 q hq
          rw [live_detach]
          refine ⟨hq2.1, ?_⟩
          by_cases hqp : q = p
          · subst hqp
            rw [hchp]
            exact (List.Nodup.mem_erase_iff hnodup_p).mpr ⟨hkc, hq2.2⟩
          · rw [hcho q hqp]
            exact hq2.2
      · rw [next_id_detach]
        exact rootedB_of_edge_sub hedge t.next_id k h5

theorem attach_transfer {t : Tree} {p c : Nat} (pos : Nat)
    (hpar : parentOf t c = none) (hlc : live t c = true)
    (hstepA : rootedB (attach t p c pos) ((ancChain t t.next_id p).length + 1) p = true) :
    ∀ f n, rootedB t f n = true → c ∈ n :: ancChain t f n →
      rootedB (attach t p c pos)
        ((ancChain t f n).length + 2 + (ancChain t t.next_id p).length) n = true := by
  intro f
  induction f with
  | zero => intro n hr _; simp [rootedB] at hr
  | succ f ih =>
    intro n hr hmem
    cases hpn : parentOf t n with
    | none =>
      rw [ancChain_succ_none f hpn] at hmem ⊢
      have hcn : c = n := by
        rcases List.mem_cons.mp hmem with he | hm
        · exact he
        · simp at hm
      subst hcn
      have hpc' : parentOf (attach t p c pos) c = some p := parentOf_attach_self t p c pos hlc
      have harith : ([] : List Nat).length + 2 + (ancChain t t.next_id p).length =
          ((ancChain t t.next_id p).length + 1) + 1 := by
        simp
        omega
      rw [harith, rootedB_succ_some _ hpc']
      exact hstepA
    | some q =>
      have hnc : n ≠ c := by
        intro he
        rw [he, hpar] at hpn
        exact absurd hpn (by simp)
      rw [rootedB_succ_some f hpn] at hr
      rw [ancChain_succ_some f hpn] at hmem ⊢
      have hmem2 : c ∈ q :: ancChain t f q := by
        rcases List.mem_cons.mp hmem with he | hm
        · exact absurd he.symm hnc
        · exact hm
      have hih := ih q hr hmem2
      have hpn' : parentOf (attach t p c pos) n = some q := by
        rw [parentOf_attach_ne t pos hnc]
        exact hpn
      have harith : (q :: ancChain t f q).length + 2 + (ancChain t t.next_id p).length =
          ((ancChain t f q).length + 2 + (ancChain t t.next_id p).length) + 1 := by
        rw [List.length_cons]
        omega
      rw [harith, rootedB_succ_some _ hpn']
      exact hih

theorem Inv.attach_inv {t : Tree} (h : Inv t) {p c : Nat} (pos : Nat)
    (hp : live t p = true) (hc : live t c = true) (hpar : parentOf t c = none)
    (hcp : c ≠ p) (hanc : c ∉ ancestors t p) : Inv (attach t p c pos) := by
  have hedit : ∀ m, m ≠ c → parentOf (attach t p c pos) m = parentOf t m :=
    fun m hm => parentOf_attach_ne t pos hm
  have hpc' : parentOf (attach t p c pos) c = some p := parentOf_attach_self t p c pos hc
  have hnochild : ∀ m, c ∉ childrenOf t m := by
    intro m hm
    have := (h.child_back hm).2
    rw [hpar] at this
    exact absurd this (by simp)
  have hrootp : rootedB t t.next_id p = true := h.rooted hp
  have hL2F : (ancChain t t.next_id p).length < t.next_id := len_anc_lt t t.next_id p hrootp
  have hancp : c ∉ ancChain t t.next_id p := by
    rw [ancestors] at hanc
    exact hanc
  have hstepA : rootedB (attach t p c pos) ((ancChain t t.next_id p).length + 1) p = true := by
    have hA0 : rootedB t ((ancChain t t.next_id p).length + 1) p = true :=
      rootedB_of_len t t.next_id _ p hrootp (by omega)
    have havoid : c ∉ p :: ancChain t ((ancChain t t.next_id p).length + 1) p := by
      intro hm
      rcases List.mem_cons.mp hm with he | hm'
      · exact hcp he
      · exact hancp (ancChain_mono_sub t _ t.next_id p (by omega) hm')
    rw [(ancChain_avoid hedit _ p havoid).2]
    exact hA0
  have hCnodup : ∀ k, live t k = true → c ∈ k :: ancChain t t.next_id k →
      ((k :: ancChain t t.next_id k) ++ (p :: ancChain t t.next_id p)).Nodup := by
    intro k hlk hcmem
    have hrootk : rootedB t t.next_id k = true := h.rooted hlk
    refine List.Nodup.append (nodup_anc t _ k hrootk) (nodup_anc t _ p hrootp) ?_
    intro x hx1 hx2
    have hxc : x = c ∨ c ∈ ancChain t t.next_id x := by
      rcases List.mem_cons.mp hx1 with he | hm
      · subst he
        rcases List.mem_cons.mp hcmem with he2 | hm2
        · exact Or.inl he2.symm
        · exact Or.inr hm2
      · rcases List.mem_cons.mp hcmem with he2 | hm2
        · rw [← he2] at hm
          rw [anc_parent_none hpar] at hm
          simp at hm
        · rcases anc_linear t t.next_id k x c hrootk hm hm2 with he3 | hm3 | hm4
          · exact Or.inl he3
          · rw [anc_parent_none hpar] at hm3
            simp at hm3
          · exact Or.inr hm4
    rcases hxc with rfl | hcx
    · rcases List.mem_cons.mp hx2 with he | hm
      · exact hcp he
      · exact hancp hm
    · rcases List.mem_cons.mp hx2 with he | hm
      · rw [he] at hcx
        exact hancp hcx
      · exact hancp (anc_tail_sub t t.next_id p x hrootp hm hcx)
  constructor
  · rw [keys_attach]
    exact h.1
  · intro k hk
    rw [keys_attach] at hk
    have hlk : live t k = true := (live_iff_mem_keys t k).mpr hk
    have hOK := (nodeOK_iff t k).mp (h.2 k hk)
    obtain ⟨h1, h2, h3, h4, h5⟩ := hOK
    rw [nodeOK_iff]
    refine ⟨?_, ?_, ?_, ?_, ?_⟩
    · rw [next_id_attach]
      exact h1
    · by_cases hkp : k = p
      · subst hkp
        rw [childrenOf_attach_parent t pos (Ne.symm hcp) hp]
        exact nodup_insertAt pos h2 (hnochild k)
      · rw [childrenOf_attach_other t pos hkp]
        exact h2
    · intro x hx
      by_cases hkp : k = p
      · subst hkp
        rw [childrenOf_attach_parent t pos (Ne.symm hcp) hp] at hx
        rcases (mem_insertAt _ pos c x).mp hx with rfl | hx'
        · rw [live_attach, hpc']
          exact ⟨hc, rfl⟩
        · have hx2 := h3 x hx'
          have hxc : x ≠ c := fun he => hnochild k (he ▸ hx')
          rw [live_attach, hedit x hxc]
          exact hx2
      · rw [childrenOf_attach_other t pos hkp] at hx
        have hx2 := h3 x hx
        have hxc : x ≠ c := fun he => hnochild k (he ▸ hx)
        rw [live_attach, hedit x hxc]
        exact hx2
    · intro q hq
      by_cases hkc : k = c
      · subst hkc
        rw [hpc'] at hq
        injection hq with he
        subst he
        rw [live_attach]
        refine ⟨hp, ?_⟩
        rw [childrenOf_attach_parent t pos (Ne.symm hcp) hp]
        exact self_mem_insertAt _ pos k
      · rw [hedit k hkc] at hq
        have hq2 := h4 q hq
        rw [live_attach]
        refine ⟨hq2.1, ?_⟩
        by_cases hqp : q = p
        · subst hqp
          rw [childrenOf_attach_parent t pos (Ne.symm hcp) hp]
          exact (mem_insertAt _ pos c k).mpr (Or.inr hq2.2)
        · rw [childrenOf_attach_other t pos hqp]
          exact hq2.2
    · rw [next_id_attach]
      by_cases hcmem : c ∈ k :: ancChain t t.next_id k
      · have hnd := hCnodup k hlk hcmem
        have hbound : ∀ x ∈ (k :: ancChain t t.next_id k) ++ (p :: ancChain t t.next_id p),
            x < t.next_id := by
          intro x hx
          rcases List.mem_append.mp hx with hx1 | hx2
          · rcases List.mem_cons.mp hx1 with rfl | hm
            · exact h.live_lt hlk
            · exact h.live_lt (h.anc_is_live hm)
          · rcases List.mem_cons.mp hx2 with rfl | hm
            · exact h.live_lt hp
            · exact h.live_lt (h.anc_is_live hm)
        have hlen := nodup_lt_length hnd hbound
        rw [List.length_append, List.length_cons, List.length_cons] at hlen
        have htr := attach_transfer pos hpar hc hstepA t.next_id k (h.rooted hlk) hcmem
        exact rootedB_mono _ _ t.next_id k (by omega) htr
      · rw [(ancChain_avoid hedit t.next_id k hcmem).2]
        exact h.rooted hlk

/-! ### Operation-level invariant preservation -/

theorem childrenOf_eq {t : Tree} {p : Nat} {r : NodeRec} (h : findNode t p = some r) :
    childrenOf t p = r.children := by
  simp [childrenOf, h]

theorem parentOf_eq {t : Tree} {p : Nat} {r : NodeRec} (h : findNode t p = some r) :
    parentOf t p = r.parent := by
  simp [parentOf, h]

theorem live_of_find {t : Tree} {p : Nat} {r : NodeRec} (h : findNode t p = some r) :
    live t p = true := by
  simp [live, h]

theorem cycleCheck_false {t : Tree} {p c : Nat} (h : ¬cycleCheck t p c = true) :
    c ≠ p ∧ c ∉ ancestors t p := by
  rw [cycleCheck] at h
  simp only [Bool.or_eq_true, decide_eq_true_eq] at h
  push_neg at h
  exact h

theorem Inv.new_leaf_inv {t : Tree} (h : Inv t) (s : Nat) : Inv (new_leaf t s).2 := by
  have hfresh : t.next_id ∉ t.nodes.map Prod.fst := by
    intro hm
    have := ((nodeOK_iff t t.next_id).mp (h.2 _ hm)).1
    omega
  have hfind : ∀ m, findNode (new_leaf t s).2 m =
      if t.next_id = m then some ⟨s, none, [], none, none, true⟩ else findNode t m := by
    intro m
    rfl
  have hpar : ∀ m, parentOf (new_leaf t s).2 m = parentOf t m := by
    intro m
    rw [parentOf, hfind m]
    by_cases hm : t.next_id = m
    · rw [if_pos hm]
      have : findNode t m = none := by
        rw [findNode, lookupN_none_iff]
        rw [← hm]
        exact hfresh
      rw [parentOf, this]
      rfl
    · rw [if_neg hm]
      rfl
  have hch : ∀ m, childrenOf (new_leaf t s).2 m = childrenOf t m := by
    intro m
    rw [childrenOf, hfind m]
    by_cases hm : t.next_id = m
    · rw [if_pos hm]
      have : findNode t m = none := by
        rw [findNode, lookupN_none_iff]
        rw [← hm]
        exact hfresh
      rw [childrenOf, this]
      rfl
    · rw [if_neg hm]
      rfl
  have hlive : ∀ m, m ≠ t.next_id → live (new_leaf t s).2 m = live t m := by
    intro m hm
    rw [live, live, hfind m, if_neg (Ne.symm hm)]
  have hkeys : (new_leaf t s).2.nodes.map Prod.fst = t.next_id :: t.nodes.map Prod.fst := rfl
  have hnext : (new_leaf t s).2.next_id = t.next_id + 1 := rfl
  constructor
  · rw [hkeys]
    exact List.nodup_cons.mpr ⟨hfresh, h.1⟩
  · intro k hk
    rw [hkeys] at hk
    have hdead : findNode t t.next_id = none := by
      rw [findNode, lookupN_none_iff]
      exact hfresh
    rcases List.mem_cons.mp hk with rfl | hkold
    · rw [nodeOK_iff]
      refine ⟨by rw [hnext]; omega, ?_, ?_, ?_, ?_⟩
      · rw [hch, childrenOf, hdead]
        exact List.nodup_nil
      · intro x hx
        rw [hch, childrenOf, hdead] at hx
        simp at hx
      · intro q hq
        rw [hpar, parentOf, hdead] at hq
        simp at hq
      · have hpk : parentOf (new_leaf t s).2 t.next_id = none := by
          rw [hpar, parentOf, hdead]
          rfl
        rw [hnext]
        exact rootedB_succ_none _ hpk
    · have hlk : live t k = true := (live_iff_mem_keys t k).mpr hkold
      have hOK := (nodeOK_iff t k).mp (h.2 k hkold)
      obtain ⟨h1, h2, h3, h4, h5⟩ := hOK
      rw [nodeOK_iff]
      refine ⟨by rw [hnext]; omega, by rw [hch]; exact h2, ?_, ?_, ?_⟩
      · intro x hx
        rw [hch] at hx
        have hx2 := h3 x hx
        have hxne : x ≠ t.next_id := by
          intro he
          rw [← he] at hfresh
          rw [live_iff_mem_keys] at hx2
          exact hfresh hx2.1
        rw [hlive x hxne, hpar]
        exact hx2
      · intro q hq
        rw [hpar] at hq
        have hq2 := h4 q hq
        have hqne : q ≠ t.next_id := by
          intro he
          rw [← he] at hfresh
          rw [live_iff_mem_keys] at hq2
          exact hfresh hq2.1
        rw [hlive q hqne, hch]
        exact hq2
      · rw [hnext, rootedB_congr hpar]
        exact rootedB_mono t t.next_id (t.next_id + 1) k (by omega) h5

theorem Inv.set_style_inv {t : Tree} (h : Inv t) {n s : Nat} {t' : Tree}
    (hok : set_style t n s = Except.ok t') : Inv t' := by
  rw [set_style] at hok
  cases hf : findNode t n with
  | none => rw [hf] at hok; exact absurd hok (by simp)
  | some r =>
    rw [hf] at hok
    injection hok with he
    subst he
    refine Inv.mark_dirty_core_inv ?_ n
    refine Inv_transfer h rfl (keys_updateNode t n _) ?_ ?_
    · intro m
      refine parentOf_updateNode_keep t n ?_ m
      intro r2
      rfl
    · intro m
      refine childrenOf_updateNode_keep t n ?_ m
      intro r2
      rfl

theorem Inv.mark_dirty_inv {t : Tree} (h : Inv t) {n : Nat} {t' : Tree}
    (hok : mark_dirty t n = Except.ok t') : Inv t' := by
  rw [mark_dirty] at hok
  cases hf : findNode t n with
  | none => rw [hf] at hok; exact absurd hok (by simp)
  | some r =>
    rw [hf] at hok
    injection hok with he
    subst he
    exact h.mark_dirty_core_inv n

theorem attach_pre {t : Tree} (h : Inv t) {p c : Nat}
    (hlp : live t p = true) (hlc : live t c = true)
    (hcp : c ≠ p) (hanc : c ∉ ancestors t p) (pos : Nat) :
    Inv (attach (detach t c) p c pos)
    ∧ ancChain (attach (detach t c) p c pos) t.next_id p = ancChain t t.next_id p := by
  have hInv1 : Inv (detach t c) := h.detach_inv c
  have havoid : c ∉ p :: ancChain t t.next_id p := by
    intro hm
    rcases List.mem_cons.mp hm with he | hm'
    · exact hcp he
    · rw [ancestors] at hanc
      exact hanc hm'
  have hchain1 : ancChain (detach t c) t.next_id p = ancChain t t.next_id p :=
    (ancChain_avoid (fun m hm => parentOf_detach_ne t hm) t.next_id p havoid).1
  have hanc1 : c ∉ ancestors (detach t c) p := by
    rw [ancestors, next_id_detach, hchain1]
    rw [ancestors] at hanc
    exact hanc
  have hlp1 : live (detach t c) p = true := by rw [live_detach]; exact hlp
  have hlc1 : live (detach t c) c = true := by rw [live_detach]; exact hlc
  have hpar1 : parentOf (detach t c) c = none := parentOf_detach_self t c
  refine ⟨hInv1.attach_inv pos hlp1 hlc1 hpar1 hcp hanc1, ?_⟩
  have havoid1 : c ∉ p :: ancChain (detach t c) t.next_id p := by
    rw [hchain1]
    exact havoid
  have hchain2 :
      ancChain (attach (detach t c) p c pos) t.next_id p =
        ancChain (detach t c) t.next_id p := by
    have hedit : ∀ m, m ≠ c → parentOf (attach (detach t c) p c pos) m =
        parentOf (detach t c) m := fun m hm => parentOf_attach_ne _ pos hm
    exact (ancChain_avoid hedit t.next_id p havoid1).1
  rw [hchain2, hchain1]

theorem Inv.add_child_inv {t : Tree} (h : Inv t) {p c : Nat} {t' : Tree}
    (hok : add_child t p c = Except.ok t') : Inv t' := by
  rw [add_child] at hok
  cases hfp : findNode t p with
  | none => rw [hfp] at hok; exact absurd hok (by simp)
  | some rp =>
    rw [hfp] at hok
    cases hfc : findNode t c with
    | none => rw [hfc] at hok; exact absurd hok (by simp)
    | some rc =>
      rw [hfc] at hok
      by_cases hcyc : cycleCheck t p c = true
      · rw [if_pos hcyc] at hok
        exact absurd hok (by simp)
      · rw [if_neg hcyc] at hok
        injection hok with he
        subst he
        obtain ⟨hcp, hanc⟩ := cycleCheck_false hcyc
        exact ((attach_pre h (live_of_find hfp) (live_of_find hfc) hcp hanc _).1).mark_dirty_core_inv p

theorem Inv.insert_child_inv {t : Tree} (h : Inv t) {p idx c : Nat} {t' : Tree}
    (hok : insert_child_at_index t p idx c = Except.ok t') : Inv t' := by
  rw [insert_child_at_index] at hok
  cases hfp : findNode t p with
  | none => simp [hfp] at hok
  | some rp =>
    simp only [hfp] at hok
    cases hfc : findNode t c with
    | none => simp [hfc] at hok
    | some rc =>
      simp only [hfc] at hok
      by_cases hidx : rp.children.length < idx
      · rw [if_pos hidx] at hok
        exact absurd hok (by simp)
      · rw [if_neg hidx] at hok
        by_cases hcyc : cycleCheck t p c = true
        · rw [if_pos hcyc] at hok
          exact absurd hok (by simp)
        · rw [if_neg hcyc] at hok
          injection hok with he
          subst he
          obtain ⟨hcp, hanc⟩ := cycleCheck_false hcyc
          exact ((attach_pre h (live_of_find hfp) (live_of_find hfc) hcp hanc _).1).mark_dirty_core_inv p

theorem Inv.replace_child_inv {t : Tree} (h : Inv t) {p idx c : Nat} {a : Nat} {t' : Tree}
    (hok : replace_child_at_index t p idx c = Except.ok (a, t')) : Inv t' := by
  rw [replace_child_at_index] at hok
  cases hfp : findNode t p with
  | none => simp [hfp] at hok
  | some rp =>
    simp only [hfp] at hok
    cases hfc : findNode t c with
    | none => simp [hfc] at hok
    | some rc =>
      simp only [hfc] at hok
      by_cases hidx : idx < rp.children.length
      · rw [if_pos hidx] at hok
        by_cases hcyc : cycleCheck t p c = true
        · rw [if_pos hcyc] at hok
          exact absurd hok (by simp)
        · rw [if_neg hcyc] at hok
          injection hok with he
          injection he with he1 he2
          subst he2
          obtain ⟨hcp, hanc⟩ := cycleCheck_false hcyc
          -- the replaced child old is a child of p, so detaching it keeps p's chain
          have hold_mem : rp.children.getD idx 0 ∈ childrenOf t p := by
            rw [childrenOf_eq hfp, List.getD_eq_getElem _ _ hidx]
            exact List.getElem_mem hidx
          have hold_notanc := h.child_not_anc hold_mem
          have hInv1 : Inv (detach t (rp.children.getD idx 0)) :=
            h.detach_inv _
          have hchain1 : ancChain (detach t (rp.children.getD idx 0)) t.next_id p =
              ancChain t t.next_id p :=
            (ancChain_avoid (fun m hm => parentOf_detach_ne t hm) t.next_id p
              (by rw [ancestors] at hold_notanc; exact hold_notanc)).1
          have hlp1 : live (detach t (rp.children.getD idx 0)) p = true := by
            rw [live_detach]
            exact live_of_find hfp
          have hlc1 : live (detach t (rp.children.getD idx 0)) c = true := by
            rw [live_detach]
            exact live_of_find hfc
          have hanc1 : c ∉ ancestors (detach t (rp.children.getD idx 0)) p := by
            rw [ancestors, next_id_detach, hchain1]
            rw [ancestors] at hanc
            exact hanc
          exact ((attach_pre hInv1 hlp1 hlc1 hcp hanc1 idx).1).mark_dirty_core_inv p
      · rw [if_neg hidx] at hok
        exact absurd hok (by simp)

theorem detach_fold_facts {p : Nat} :
    ∀ (os : List Nat) (t : Tree), Inv t →
      (∀ o ∈ os, o ∉ p :: ancChain t t.next_id p) →
      Inv (os.foldl detach t)
      ∧ (os.foldl detach t).next_id = t.next_id
      ∧ (∀ m, live (os.foldl detach t) m = live t m)
      ∧ ancChain (os.foldl detach t) t.next_id p = ancChain t t.next_id p := by
  intro os
  induction os with
  | nil => intro t h _; exact ⟨h, rfl, fun m => rfl, rfl⟩
  | cons o rest ih =>
    intro t h hos
    have hInv1 : Inv (detach t o) := h.detach_inv o
    have havoid := hos o (List.mem_cons_self o rest)
    have hchain1 := (ancChain_avoid (fun m hm => parentOf_detach_ne t hm) t.next_id p havoid).1
    have hrest : ∀ o' ∈ rest, o' ∉ p :: ancChain (detach t o) (detach t o).next_id p := by
      intro o' ho'
      rw [next_id_detach, hchain1]
      exact hos o' (List.mem_cons_of_mem o ho')
    have hih := ih (detach t o) hInv1 hrest
    rw [List.foldl_cons]
    refine ⟨hih.1, ?_, ?_, ?_⟩
    · rw [hih.2.1, next_id_detach]
    · intro m
      rw [hih.2.2.1 m, live_detach]
    · have h4 := hih.2.2.2
      rw [next_id_detach] at h4
      rw [h4, hchain1]

theorem attach_fold_facts {p : Nat} :
    ∀ (cs : List Nat) (t : Tree), Inv t → live t p = true →
      (∀ x ∈ cs, live t x = true ∧ x ≠ p ∧ x ∉ ancChain t t.next_id p) →
      Inv (cs.foldl (fun acc c =>
            let acc1 := detach acc c
            attach acc1 p c (childrenOf acc1 p).length) t)
      ∧ (cs.foldl (fun acc c =>
            let acc1 := detach acc c
            attach acc1 p c (childrenOf acc1 p).length) t).next_id = t.next_id
      ∧ (∀ m, live (cs.foldl (fun acc c =>
            let acc1 := detach acc c
            attach acc1 p c (childrenOf acc1 p).length) t) m = live t m)
      ∧ ancChain (cs.foldl (fun acc c =>
            let acc1 := detach acc c
            attach acc1 p c (childrenOf acc1 p).length) t) t.next_id p
          = ancChain t t.next_id p := by
  intro cs
  induction cs with
  | nil => intro t h _ _; exact ⟨h, rfl, fun m => rfl, rfl⟩
  | cons c rest ih =>
    intro t h hlp hcs
    obtain ⟨hlc, hcp, hanc⟩ := hcs c (List.mem_cons_self c rest)
    have hpre := attach_pre h hlp hlc hcp (by rw [ancestors]; exact hanc)
      (childrenOf (detach t c) p).length
    have hInv2 := hpre.1
    have hchain2 := hpre.2
    have hnext2 : (attach (detach t c) p c (childrenOf (detach t c) p).length).next_id
        = t.next_id := by
      rw [next_id_attach, next_id_detach]
    have hlive2 : ∀ m, live (attach (detach t c) p c (childrenOf (detach t c) p).length) m
        = live t m := by
      intro m
      rw [live_attach, live_detach]
    have hrest : ∀ x ∈ rest,
        live (attach (detach t c) p c (childrenOf (detach t c) p).length) x = true
        ∧ x ≠ p
        ∧ x ∉ ancChain (attach (detach t c) p c (childrenOf (detach t c) p).length)
            (attach (detach t c) p c (childrenOf (detach t c) p).length).next_id p := by
      intro x hx
      obtain ⟨hlx, hxp, hxanc⟩ := hcs x (List.mem_cons_of_mem c hx)
      refine ⟨by rw [hlive2]; exact hlx, hxp, ?_⟩
      rw [hnext2, hchain2]
      exact hxanc
    have hih := ih (attach (detach t c) p c (childrenOf (detach t c) p).length) hInv2
      (by rw [hlive2]; exact hlp) hrest
    rw [List.foldl_cons]
    refine ⟨hih.1, ?_, ?_, ?_⟩
    · rw [hih.2.1, hnext2]
    · intro m
      rw [hih.2.2.1 m, hlive2]
    · have h4 := hih.2.2.2
      rw [hnext2] at h4
      rw [h4, hchain2]

theorem Inv.set_children_inv {t : Tree} (h : Inv t) {p : Nat} {cs : List Nat} {t' : Tree}
    (hok : set_children t p cs = Except.ok t') : Inv t' := by
  rw [set_children] at hok
  cases hfp : findNode t p with
  | none => simp [hfp] at hok
  | some rp =>
    simp only [hfp] at hok
    by_cases hall : cs.all (fun c => live t c) = true
    · have hc1 : ¬((!cs.all fun c => live t c) = true) := by
        rw [hall]
        simp
      rw [if_neg hc1] at hok
      by_cases hnodup : cs.Nodup
      · have hc2 : ¬((!decide cs.Nodup) = true) := by
          simp [hnodup]
        rw [if_neg hc2] at hok
        by_cases hany : cs.any (fun c => cycleCheck t p c) = true
        · rw [if_pos hany] at hok
          exact absurd hok (by simp)
        · rw [if_neg hany] at hok
          injection hok with he
          subst he
          have hlp : live t p = true := live_of_find hfp
          have hph1 : ∀ o ∈ childrenOf t p, o ∉ p :: ancChain t t.next_id p := by
            intro o ho
            have := h.child_not_anc ho
            rw [ancestors] at this
            exact this
          have hf1 := detach_fold_facts (childrenOf t p) t h hph1
          have hcs2 : ∀ x ∈ cs,
              live ((childrenOf t p).foldl detach t) x = true
              ∧ x ≠ p
              ∧ x ∉ ancChain ((childrenOf t p).foldl detach t)
                  ((childrenOf t p).foldl detach t).next_id p := by
            intro x hx
            have hlx : live t x = true := by
              rw [List.all_eq_true] at hall
              exact hall x hx
            have hnocyc : ¬cycleCheck t p x = true := by
              intro hcx
              rw [List.any_eq_true] at hany
              exact hany ⟨x, hx, hcx⟩
            obtain ⟨hxp, hxanc⟩ := cycleCheck_false hnocyc
            refine ⟨by rw [hf1.2.2.1]; exact hlx, hxp, ?_⟩
            rw [hf1.2.1, hf1.2.2.2]
            rw [ancestors] at hxanc
            exact hxanc
          have hf2 := attach_fold_facts cs ((childrenOf t p).foldl detach t) hf1.1
            (by rw [hf1.2.2.1]; exact hlp) hcs2
          exact hf2.1.mark_dirty_core_inv p
      · have hc2 : (!decide cs.Nodup) = true := by
          simp [hnodup]
        rw [if_pos hc2] at hok
        exact absurd hok (by simp)
    · have hc1 : (!cs.all fun c => live t c) = true := by
        cases hb : cs.all fun c => live t c with
        | false => rfl
        | true => exact absurd hb hall
      rw [if_pos hc1] at hok
      exact absurd hok (by simp)

/-! ### remove: clearing parents of orphaned children -/

theorem clearFold_next_id (cs : List Nat) :
    ∀ t : Tree, (cs.foldl (fun acc c =>
      updateNode acc c (fun rc => { rc with parent := none })) t).next_id = t.next_id := by
  induction cs with
  | nil => intro t; rfl
  | cons c rest ih => intro t; rw [List.foldl_cons, ih]; rfl

theorem clearFold_keys (cs : List Nat) :
    ∀ t : Tree, (cs.foldl (fun acc c =>
      updateNode acc c (fun rc => { rc with parent := none })) t).nodes.map Prod.fst
      = t.nodes.map Prod.fst := by
  induction cs with
  | nil => intro t; rfl
  | cons c rest ih => intro t; rw [List.foldl_cons, ih, keys_updateNode]

theorem clearFold_live (cs : List Nat) :
    ∀ (t : Tree) m, live (cs.foldl (fun acc c =>
      updateNode acc c (fun rc => { rc with parent := none })) t) m = live t m := by
  induction cs with
  | nil => intro t m; rfl
  | cons c rest ih => intro t m; rw [List.foldl_cons, ih, live_updateNode]

theorem clearFold_children (cs : List Nat) :
    ∀ (t : Tree) m, childrenOf (cs.foldl (fun acc c =>
      updateNode acc c (fun rc => { rc with parent := none })) t) m = childrenOf t m := by
  induction cs with
  | nil => intro t m; rfl
  | cons c rest ih =>
    intro t m
    rw [List.foldl_cons, ih]
    refine childrenOf_updateNode_keep t c ?_ m
    intro r
    rfl

theorem clearFold_parent_not_mem (cs : List Nat) :
    ∀ (t : Tree) m, m ∉ cs → parentOf (cs.foldl (fun acc c =>
      updateNode acc c (fun rc => { rc with parent := none })) t) m = parentOf t m := by
  induction cs with
  | nil => intro t m _; rfl
  | cons c rest ih =>
    intro t m hm
    have hmc : m ≠ c := fun he => hm (he ▸ List.mem_cons_self c rest)
    have hmr : m ∉ rest := fun h2 => hm (List.mem_cons_of_mem c h2)
    rw [List.foldl_cons, ih _ m hmr, parentOf_updateNode_ne t _ hmc]

theorem clearFold_parent_mem (cs : List Nat) :
    ∀ (t : Tree) m, m ∈ cs → parentOf (cs.foldl (fun acc c =>
      updateNode acc c (fun rc => { rc with parent := none })) t) m = none := by
  induction cs with
  | nil => intro t m hm; simp at hm
  | cons c rest ih =>
    intro t m hm
    rw [List.foldl_cons]
    by_cases hmr : m ∈ rest
    · exact ih _ m hmr
    · have hmc : m = c := by
        rcases List.mem_cons.mp hm with he | h2
        · exact he
        · exact absurd h2 hmr
      subst hmc
      rw [clearFold_parent_not_mem rest _ m hmr, parentOf, findNode_updateNode_self]
      cases findNode t m <;> simp

/-! ### eraseNode characterization -/

theorem next_id_eraseNode (t : Tree) (n : Nat) : (eraseNode t n).next_id = t.next_id := rfl

theorem findNode_eraseNode_self (t : Tree) (n : Nat) : findNode (eraseNode t n) n = none :=
  lookupN_eraseN_self _ _

theorem findNode_eraseNode_ne (t : Tree) {n m : Nat} (h : m ≠ n) :
    findNode (eraseNode t n) m = findNode t m := lookupN_eraseN_ne _ h

theorem keys_eraseN_iff (l : List (Nat × NodeRec)) (n x : Nat) :
    x ∈ (eraseN l n).map Prod.fst ↔ x ∈ l.map Prod.fst ∧ x ≠ n := by
  induction l with
  | nil => simp [eraseN]
  | cons p rest ih =>
    by_cases h : p.1 = n
    · simp only [eraseN, if_pos h, ih, List.map_cons, List.mem_cons]
      constructor
      · rintro ⟨h1, h2⟩
        exact ⟨Or.inr h1, h2⟩
      · rintro ⟨h1 | h1, h2⟩
        · exact absurd (h1.trans h) h2
        · exact ⟨h1, h2⟩
    · simp only [eraseN, if_neg h, List.map_cons, List.mem_cons, ih]
      constructor
      · rintro (he | ⟨h1, h2⟩)
        · exact ⟨Or.inl he, fun hxn => h (by rw [← he, ← hxn])⟩
        · exact ⟨Or.inr h1, h2⟩
      · rintro ⟨he | h1, h2⟩
        · exact Or.inl he
        · exact Or.inr ⟨h1, h2⟩

theorem keys_eraseNode_nodup {t : Tree} (h : (t.nodes.map Prod.fst).Nodup) (n : Nat) :
    ((eraseNode t n).nodes.map Prod.fst).Nodup :=
  ((eraseN_sublist t.nodes n).map Prod.fst).nodup h

/-! ### remove preserves the invariant -/

theorem remove_core_inv {t : Tree} (h : Inv t) {n : Nat} {r : NodeRec}
    (hf : findNode t n = some r) :
    Inv (eraseNode (r.children.foldl
      (fun acc c => updateNode acc c (fun rc => { rc with parent := none }))
      (detach t n)) n) := by
  set t1 := detach t n with ht1
  set t2 := r.children.foldl
    (fun acc c => updateNode acc c (fun rc => { rc with parent := none })) t1 with ht2
  set t3 := eraseNode t2 n with ht3
  have hcs : childrenOf t n = r.children := childrenOf_eq hf
  have hln : live t n = true := live_of_find hf
  have hnn : ∀ {q : Nat}, parentOf t q = some n → q ∈ r.children := by
    intro q hq
    rw [← hcs]
    exact h.parent_listed hq
  -- nobody lists n after the detach
  have hnolist : ∀ m, n ∉ childrenOf t1 m := by
    intro m hm
    cases hpn : parentOf t n with
    | none =>
      have ht1id : t1 = t := by rw [ht1, detach, hpn]
      rw [ht1id] at hm
      have := (h.child_back hm).2
      rw [this] at hpn
      exact absurd hpn (by simp)
    | some p =>
      by_cases hmp : m = p
      · subst hmp
        rw [ht1, childrenOf_detach_parent t hpn] at hm
        have hnd : (childrenOf t m).Nodup := h.child_nodup (h.parent_live n m hpn)
        exact (List.Nodup.mem_erase_iff hnd).mp hm |>.1 rfl
      · rw [ht1, childrenOf_detach_other t (fun p' hp' => by
          rw [hpn] at hp'
          injection hp' with he
          exact he ▸ hmp)] at hm
        have := (h.child_back hm).2
        rw [this] at hpn
        injection hpn with he
        exact hmp he
  have hchsub : ∀ m, childrenOf t1 m ⊆ childrenOf t m := by
    intro m
    cases hpn : parentOf t n with
    | none =>
      have ht1id : t1 = t := by rw [ht1, detach, hpn]
      rw [ht1id]
      exact List.Subset.refl _
    | some p =>
      by_cases hmp : m = p
      · subst hmp
        rw [ht1, childrenOf_detach_parent t hpn]
        exact List.erase_subset _ _
      · rw [ht1, childrenOf_detach_other t (fun p' hp' => by
          rw [hpn] at hp'
          injection hp' with he
          exact he ▸ hmp)]
        exact List.Subset.refl _
  have hch3 : ∀ m, m ≠ n → childrenOf t3 m = childrenOf t1 m := by
    intro m hm
    rw [ht3, childrenOf, findNode_eraseNode_ne t2 hm, ← childrenOf]
    rw [ht2, clearFold_children]
  have hpar3 : ∀ m, m ≠ n → m ∉ r.children → parentOf t3 m = parentOf t m := by
    intro m hm hmc
    rw [ht3, parentOf, findNode_eraseNode_ne t2 hm, ← parentOf]
    rw [ht2, clearFold_parent_not_mem _ _ m hmc, ht1, parentOf_detach_ne t hm]
  have hpar3mem : ∀ m, m ≠ n → m ∈ r.children → parentOf t3 m = none := by
    intro m hm hmc
    rw [ht3, parentOf, findNode_eraseNode_ne t2 hm, ← parentOf]
    rw [ht2, clearFold_parent_mem _ _ m hmc]
  have hlive3 : ∀ m, m ≠ n → live t3 m = live t m := by
    intro m hm
    rw [ht3, live, findNode_eraseNode_ne t2 hm, ← live]
    rw [ht2, clearFold_live, ht1, live_detach]
  have hnext3 : t3.next_id = t.next_id := by
    rw [ht3, next_id_eraseNode, ht2, clearFold_next_id, ht1, next_id_detach]
  have hedge : ∀ m q, parentOf t3 m = some q → parentOf t m = some q := by
    intro m q hq
    by_cases hm : m = n
    · subst hm
      rw [ht3, parentOf, findNode_eraseNode_self] at hq
      exact absurd hq (by simp)
    · by_cases hmc : m ∈ r.children
      · rw [hpar3mem m hm hmc] at hq
        exact absurd hq (by simp)
      · rw [hpar3 m hm hmc] at hq
        exact hq
  constructor
  · rw [ht3, eraseNode]
    refine keys_eraseNode_nodup ?_ n
    rw [ht2, clearFold_keys, ht1, keys_detach]
    exact h.1
  · intro k hk
    have hk2 : k ∈ t.nodes.map Prod.fst ∧ k ≠ n := by
      have := hk
      rw [ht3, eraseNode] at this
      have h2 := (keys_eraseN_iff t2.nodes n k).mp this
      rw [ht2] at h2
      constructor
      · have h3 := h2.1
        rw [clearFold_keys, ht1, keys_detach] at h3
        exact h3
      · exact h2.2
    have hkn : k ≠ n := hk2.2
    have hlk : live t k = true := (live_iff_mem_keys t k).mpr hk2.1
    have hOK := (nodeOK_iff t k).mp (h.nodeOKof hlk)
    obtain ⟨h1, h2, h3, h4, h5⟩ := hOK
    rw [nodeOK_iff]
    refine ⟨?_, ?_, ?_, ?_, ?_⟩
    · rw [hnext3]
      exact h1
    · rw [hch3 k hkn]
      cases hpn : parentOf t n with
      | none =>
        have ht1id : t1 = t := by rw [ht1, detach, hpn]
        rw [ht1id]
        exact h2
      | some p =>
        by_cases hkp : k = p
        · subst hkp
          rw [ht1, childrenOf_detach_parent t hpn]
          exact h2.erase n
        · rw [ht1, childrenOf_detach_other t (fun p' hp' => by
            rw [hpn] at hp'
            injection hp' with he
            exact he ▸ hkp)]
          exact h2
    · intro x hx
      rw [hch3 k hkn] at hx
      have hxn : x ≠ n := fun he => hnolist k (he ▸ hx)
      have hxt : x ∈ childrenOf t k := hchsub k hx
      have hx2 := h3 x hxt
      have hxcs : x ∉ r.children := by
        intro hxc
        rw [← hcs] at hxc
        have := (h.child_back hxc).2
        rw [hx2.2] at this
        injection this with he
        exact hkn he
      rw [hlive3 x hxn, hpar3 x hxn hxcs]
      exact ⟨hx2.1, hx2.2⟩
    · intro q hq
      have hkcs : k ∉ r.children := by
        intro hkc
        rw [hpar3mem k hkn hkc] at hq
        exact absurd hq (by simp)
      rw [hpar3 k hkn hkcs] at hq
      have hq2 := h4 q hq
      have hqn : q ≠ n := by
        intro he
        subst he
        exact hkcs (hnn hq)
      rw [hlive3 q hqn]
      refine ⟨hq2.1, ?_⟩
      rw [hch3 q hqn]
      cases hpn : parentOf t n with
      | none =>
        have ht1id : t1 = t := by rw [ht1, detach, hpn]
        rw [ht1id]
        exact hq2.2
      | some p =>
        by_cases hqp : q = p
        · subst hqp
          rw [ht1, childrenOf_detach_parent t hpn]
          exact (List.mem_erase_of_ne hkn).mpr hq2.2
        · rw [ht1, childrenOf_detach_other t (fun p' hp' => by
            rw [hpn] at hp'
            injection hp' with he
            exact he ▸ hqp)]
          exact hq2.2
    · rw [hnext3]
      exact rootedB_of_edge_sub hedge t.next_id k h5

theorem Inv.remove_inv {t : Tree} (h : Inv t) {n a : Nat} {t' : Tree}
    (hok : remove t n = Except.ok (a, t')) : Inv t' := by
  rw [remove] at hok
  cases hf : findNode t n with
  | none => simp [hf] at hok
  | some r =>
    simp only [hf] at hok
    injection hok with he
    injection he with he1 he2
    have hcore := remove_core_inv h hf
    cases hrp : r.parent with
    | none =>
      rw [hrp] at he2
      rw [← he2]
      exact hcore
    | some p =>
      rw [hrp] at he2
      rw [← he2]
      exact hcore.mark_dirty_core_inv p

/-! ### Sequences of operations preserve the invariant -/

theorem Inv.applyOp_inv {t : Tree} (h : Inv t) (op : Op) : Inv (applyOp t op) := by
  rw [applyOp]
  cases hstep : stepOp t op with
  | error e => exact h
  | ok t2 =>
    cases op with
    | newLeaf s =>
      rw [stepOp] at hstep
      injection hstep with he
      rw [← he]
      exact h.new_leaf_inv s
    | addChild p c =>
      rw [stepOp] at hstep
      exact h.add_child_inv hstep
    | insertChildAtIndex p i c =>
      rw [stepOp] at hstep
      exact h.insert_child_inv hstep
    | replaceChildAtIndex p i c =>
      rw [stepOp] at hstep
      cases hr : replace_child_at_index t p i c with
      | error e => rw [hr] at hstep; simp [Except.map] at hstep
      | ok pr =>
        obtain ⟨a, tr⟩ := pr
        rw [hr] at hstep
        simp only [Except.map] at hstep
        injection hstep with he
        rw [← he]
        exact h.replace_child_inv hr
    | setChildren p cs =>
      rw [stepOp] at hstep
      exact h.set_children_inv hstep
    | removeNode m =>
      rw [stepOp] at hstep
      cases hr : remove t m with
      | error e => rw [hr] at hstep; simp [Except.map] at hstep
      | ok pr =>
        obtain ⟨a, tr⟩ := pr
        rw [hr] at hstep
        simp only [Except.map] at hstep
        injection hstep with he
        rw [← he]
        exact h.remove_inv hr
    | setStyle m s2 =>
      rw [stepOp] at hstep
      exact h.set_style_inv hstep
    | markDirty m =>
      rw [stepOp] at hstep
      exact h.mark_dirty_inv hstep

theorem Inv.applyOps_inv {t : Tree} (h : Inv t) (ops : List Op) : Inv (applyOps ops t) := by
  induction ops generalizing t with
  | nil => exact h
  | cons op rest ih =>
    rw [applyOps, List.foldl_cons]
    exact ih (h.applyOp_inv op)

/-! ### Acyclicity along children links -/

theorem reach_len_lt {t : Tree} (h : Inv t) {a b : Nat} (hr : ChildReach t a b) :
    live t a = true ∧ live t b = true
    ∧ (ancChain t t.next_id a).length < (ancChain t t.next_id b).length := by
  induction hr with
  | child hc =>
    rename_i n c
    have hln : live t n = true := live_of_children_mem hc
    have hcb := h.child_back hc
    obtain ⟨F, hF⟩ := h.pos_next_id hln
    have hrootc : rootedB t t.next_id c = true := h.rooted hcb.1
    have hrootn : rootedB t F n = true := by
      rw [hF] at hrootc
      rw [rootedB_succ_some F hcb.2] at hrootc
      exact hrootc
    have hchainc : ancChain t t.next_id c = n :: ancChain t F n := by
      rw [hF]
      exact ancChain_succ_some F hcb.2
    have hstabn : ancChain t t.next_id n = ancChain t F n := by
      rw [hF]
      exact ancChain_stab t F (F + 1) n (Nat.le_succ F) hrootn
    refine ⟨hln, hcb.1, ?_⟩
    rw [hchainc, hstabn, List.length_cons]
    omega
  | trans hab hbc ih1 ih2 =>
    exact ⟨ih1.1, ih2.2.1, lt_trans ih1.2.2 ih2.2.2⟩

theorem Inv.acyclic {t : Tree} (h : Inv t) : ∀ m, ¬ ChildReach t m m := by
  intro m hr
  exact absurd (reach_len_lt h hr).2.2 (lt_irrefl _)

theorem reach_mem_anc {t : Tree} (h : Inv t) {a b : Nat} (hr : ChildReach t a b) :
    a ∈ ancChain t t.next_id b := by
  induction hr with
  | child hc =>
    have hcb := h.child_back hc
    obtain ⟨F, hF⟩ := h.pos_next_id hcb.1
    rw [hF, ancChain_succ_some F hcb.2]
    exact List.mem_cons_self _ _
  | trans hab hbc ih1 ih2 =>
    have hlc : live t _ = true := (reach_len_lt h hbc).2.1
    exact anc_tail_sub t t.next_id _ _ (h.rooted hlc) ih2 ih1

theorem selfDescend_check {t : Tree} (h : Inv t) {p c : Nat} (hsd : SelfDescend t p c) :
    cycleCheck t p c = true := by
  rw [cycleCheck]
  rcases hsd with he | hr
  · simp [he]
  · have hmem := reach_mem_anc h hr
    rw [ancestors]
    simp [hmem]

/-! ### Cycle-creating operations fail with InvalidHierarchy -/

theorem add_child_cycle_err {t : Tree} (h : Inv t) {p c : Nat}
    (hp : live t p = true) (hc : live t c = true) (hsd : SelfDescend t p c) :
    add_child t p c = Except.error TaffyErr.InvalidHierarchy := by
  rw [live] at hp hc
  rw [add_child]
  cases hfp : findNode t p with
  | none => rw [hfp] at hp; simp at hp
  | some rp =>
    cases hfc : findNode t c with
    | none => rw [hfc] at hc; simp at hc
    | some rc =>
      simp only [hfp, hfc]
      rw [if_pos (selfDescend_check h hsd)]

theorem insert_child_cycle_err {t : Tree} (h : Inv t) {p c : Nat}
    (hp : live t p = true) (hc : live t c = true) (hsd : SelfDescend t p c)
    {idx : Nat} (hidx : ¬(childrenOf t p).length < idx) :
    insert_child_at_index t p idx c = Except.error TaffyErr.InvalidHierarchy := by
  rw [live] at hp hc
  rw [insert_child_at_index]
  cases hfp : findNode t p with
  | none => rw [hfp] at hp; simp at hp
  | some rp =>
    cases hfc : findNode t c with
    | none => rw [hfc] at hc; simp at hc
    | some rc =>
      simp only [hfp, hfc]
      rw [childrenOf_eq hfp] at hidx
      rw [if_neg hidx, if_pos (selfDescend_check h hsd)]

theorem replace_child_cycle_err {t : Tree} (h : Inv t) {p c : Nat}
    (hp : live t p = true) (hc : live t c = true) (hsd : SelfDescend t p c)
    {idx : Nat} (hidx : idx < (childrenOf t p).length) :
    replace_child_at_index t p idx c = Except.error TaffyErr.InvalidHierarchy := by
  rw [live] at hp hc
  rw [replace_child_at_index]
  cases hfp : findNode t p with
  | none => rw [hfp] at hp; simp at hp
  | some rp =>
    cases hfc : findNode t c with
    | none => rw [hfc] at hc; simp at hc
    | some rc =>
      simp only [hfp, hfc]
      rw [childrenOf_eq hfp] at hidx
      rw [if_pos hidx, if_pos (selfDescend_check h hsd)]

theorem set_children_cycle_err {t : Tree} (h : Inv t) {p c : Nat} {cs : List Nat}
    (hp : live t p = true) (hsd : SelfDescend t p c)
    (hnodup : cs.Nodup) (hall : ∀ x ∈ cs, live t x = true) (hmem : c ∈ cs) :
    set_children t p cs = Except.error TaffyErr.InvalidHierarchy := by
  rw [live] at hp
  rw [set_children]
  cases hfp : findNode t p with
  | none => rw [hfp] at hp; simp at hp
  | some rp =>
    simp only [hfp]
    have hc1 : ¬((!cs.all fun c => live t c) = true) := by
      have : (cs.all fun c => live t c) = true := List.all_eq_true.mpr hall
      rw [this]
      simp
    rw [if_neg hc1]
    have hc2 : ¬((!decide cs.Nodup) = true) := by
      simp [hnodup]
    rw [if_neg hc2]
    have hc3 : (cs.any fun c => cycleCheck t p c) = true :=
      List.any_eq_true.mpr ⟨c, hmem, selfDescend_check h hsd⟩
    rw [if_pos hc3]

/-! ### Claim theorems -/

/-- Claim C9: for every AlignSelf value v, including Auto, setting align_self
to Some(v) and reading it back yields Some(v); Auto is stored internally as
the absent value, and an unset align_self reads back as Some(Auto), never as
None. -/
theorem align_self_roundtrip :
    (∀ (st : Style) (v : AlignSelf), (st.set_align_self (some v)).align_self = some v)
    ∧ Style.new.align_self = some AlignSelf.Auto
    ∧ (∀ st : Style, st.align_self ≠ none) := by
  refine ⟨?_, rfl, ?_⟩
  · intro st v
    cases v <;> rfl
  · intro st
    rw [Style.align_self]
    cases st.alignSelfInner <;> simp

/-- Claim C4 counterexample: on a stale or unknown id (id 0 in the empty
tree) the unroundedLayout wrapper does not return a NotFound error: the
binding has no error path at all, and the stale access surfaces as an abort
of the core's unchecked slot read. -/
theorem unrounded_layout_stale_counterexample :
    unrounded_layout emptyTree 0 = LayoutCall.abort
    ∧ unrounded_layout emptyTree 0 ≠ LayoutCall.err TaffyErr.NotFound := by
  constructor
  · rfl
  · decide

/-- Claim C4 amended: unrounded_layout never returns an error value: for a
live node it wraps the stored unrounded layout in Ok unconditionally (the
wrapper performs no error mapping), and for a stale or unknown id the
underlying unchecked access aborts instead of returning NotFound. -/
theorem unrounded_layout_never_err :
    ∀ (t : Tree) (n : Nat) (e : TaffyErr), unrounded_layout t n ≠ LayoutCall.err e := by
  intro t n e
  rw [unrounded_layout]
  cases findNode t n <;> simp

/-- Claim C10: getNodeContext never returns an error: it yields the attached
context value when one exists and the undefined value (modelled as Ok none)
both when the node has no context and when the node id is stale or
unknown. -/
theorem get_node_context_total :
    ∀ (t : Tree) (n : Nat),
      get_node_context t n = Except.ok ((findNode t n).bind (·.context))
      ∧ (findNode t n = none → get_node_context t n = Except.ok none) := by
  intro t n
  constructor
  · rw [get_node_context]
    cases (findNode t n).bind (·.context) <;> rfl
  · intro hd
    rw [get_node_context, hd]
    rfl

/-- Witness for C10 at a concrete stale id: the empty tree has no node 5,
and the wrapper returns Ok undefined rather than an error. -/
theorem get_node_context_total_witness :
    findNode emptyTree 5 = none ∧ get_node_context emptyTree 5 = Except.ok none :=
  ⟨by decide, (get_node_context_total emptyTree 5).2 (by decide)⟩

/-- Claim C2: a live node that no successful compute_layout call has covered
(its cached layout is absent) makes the layout query fail with NotComputed,
which is a distinct error from the NotFound returned for a missing node. -/
theorem layout_not_computed (t : Tree) (n : Nat)
    (hl : live t n = true) (hnc : cachedOf t n = none) :
    layout t n = Except.error TaffyErr.NotComputed
    ∧ TaffyErr.NotComputed ≠ TaffyErr.NotFound := by
  refine ⟨?_, by decide⟩
  rw [live] at hl
  rw [layout]
  cases hf : findNode t n with
  | none => rw [hf] at hl; simp at hl
  | some r =>
    rw [cachedOf, hf] at hnc
    simp at hnc
    simp [hnc]

/-- Witness for C2: a freshly created leaf is live, has no cached layout,
and its layout query fails with NotComputed. -/
theorem layout_not_computed_witness :
    live (new_leaf emptyTree 7).2 0 = true
    ∧ cachedOf (new_leaf emptyTree 7).2 0 = none
    ∧ layout (new_leaf emptyTree 7).2 0 = Except.error TaffyErr.NotComputed
    ∧ TaffyErr.NotComputed ≠ TaffyErr.NotFound :=
  ⟨by decide, by decide,
    (layout_not_computed (new_leaf emptyTree 7).2 0 (by decide) (by decide)).1,
    (layout_not_computed (new_leaf emptyTree 7).2 0 (by decide) (by decide)).2⟩

/-- Claim C6: set_style on a live node always succeeds and leaves the node
dirty, for every style value, including one equal to the previous style. -/
theorem set_style_always_dirty (t : Tree) (n s : Nat) (hl : live t n = true) :
    ∃ t', set_style t n s = Except.ok t' ∧ dirty t' n = Except.ok true := by
  have hl0 := hl
  rw [live] at hl0
  cases hf : findNode t n with
  | none => rw [hf] at hl0; simp at hl0
  | some r =>
    refine ⟨mark_dirty_core (updateNode t n fun r2 => { r2 with style := s }) n, ?_, ?_⟩
    · rw [set_style]
      simp [hf]
    · have hlive2 : live (updateNode t n fun r2 => { r2 with style := s }) n = true := by
        rw [live_updateNode]
        exact hl
      have hd := dirtyOf_setDirtyList_mem (updateNode t n fun r2 => { r2 with style := s })
        (n :: ancestors (updateNode t n fun r2 => { r2 with style := s }) n)
        (List.mem_cons_self n _) hlive2
      rw [← mark_dirty_core] at hd
      rw [dirty]
      cases hf3 : findNode (mark_dirty_core (updateNode t n fun r2 => { r2 with style := s }) n) n with
      | none =>
        rw [dirtyOf, hf3] at hd
        simp at hd
      | some r3 =>
        rw [dirtyOf, hf3] at hd
        simp at hd
        simp [hd]

/-- Witness for C6: on a one-leaf tree, setting the node's style to the very
value it already has still succeeds and marks the node dirty. -/
theorem set_style_always_dirty_witness :
    live (new_leaf emptyTree 7).2 0 = true
    ∧ ∃ t', set_style (new_leaf emptyTree 7).2 0 7 = Except.ok t'
        ∧ dirty t' 0 = Except.ok true :=
  ⟨by decide, set_style_always_dirty (new_leaf emptyTree 7).2 0 7 (by decide)⟩

/-- Claim C3: for every sequence of structural mutations starting from a
well-formed tree, the tree stays well-formed: no node is reachable from
itself along children links, and every child's recorded parent is the node
that lists it; moreover an addChild, insertChildAtIndex, replaceChildAtIndex
or setChildren call that would make a node a descendant of itself (and fails
no earlier liveness or index check) fails with InvalidHierarchy. -/
theorem structural_mutations_acyclic :
    (∀ (ops : List Op) (t0 : Tree), Inv t0 →
      Inv (applyOps ops t0)
      ∧ (∀ m, ¬ ChildReach (applyOps ops t0) m m)
      ∧ (∀ m c, c ∈ childrenOf (applyOps ops t0) m →
          parentOf (applyOps ops t0) c = some m))
    ∧ (∀ (t : Tree) (p c : Nat), Inv t → live t p = true → live t c = true →
        SelfDescend t p c →
        add_child t p c = Except.error TaffyErr.InvalidHierarchy
        ∧ (∀ idx, ¬(childrenOf t p).length < idx →
            insert_child_at_index t p idx c = Except.error TaffyErr.InvalidHierarchy)
        ∧ (∀ idx, idx < (childrenOf t p).length →
            replace_child_at_index t p idx c = Except.error TaffyErr.InvalidHierarchy)
        ∧ (∀ cs, cs.Nodup → (∀ x ∈ cs, live t x = true) → c ∈ cs →
            set_children t p cs = Except.error TaffyErr.InvalidHierarchy)) := by
  constructor
  · intro ops t0 h0
    have hInv : Inv (applyOps ops t0) := h0.applyOps_inv ops
    refine ⟨hInv, hInv.acyclic, ?_⟩
    intro m c hc
    exact (hInv.child_back hc).2
  · intro t p c h hp hc hsd
    refine ⟨add_child_cycle_err h hp hc hsd, ?_, ?_, ?_⟩
    · intro idx hidx
      exact insert_child_cycle_err h hp hc hsd hidx
    · intro idx hidx
      exact replace_child_cycle_err h hp hc hsd hidx
    · intro cs hnodup hall hmem
      exact set_children_cycle_err h hp hsd hnodup hall hmem

/-- Witness for C3: a concrete three-operation history keeps the tree
well-formed, and the attempt to attach node 0 (an ancestor) as a child of
node 1 fails with InvalidHierarchy. -/
theorem structural_mutations_acyclic_witness :
    Inv emptyTree
    ∧ Inv (applyOps [Op.newLeaf 0, Op.newLeaf 1, Op.addChild 0 1] emptyTree)
    ∧ (∀ m, ¬ ChildReach (applyOps [Op.newLeaf 0, Op.newLeaf 1, Op.addChild 0 1] emptyTree) m m)
    ∧ add_child (applyOps [Op.newLeaf 0, Op.newLeaf 1, Op.addChild 0 1] emptyTree) 1 0
        = Except.error TaffyErr.InvalidHierarchy :=
  ⟨by decide,
   (structural_mutations_acyclic.1 [Op.newLeaf 0, Op.newLeaf 1, Op.addChild 0 1]
      emptyTree (by decide)).1,
   (structural_mutations_acyclic.1 [Op.newLeaf 0, Op.newLeaf 1, Op.addChild 0 1]
      emptyTree (by decide)).2.1,
   (structural_mutations_acyclic.2
      (applyOps [Op.newLeaf 0, Op.newLeaf 1, Op.addChild 0 1] emptyTree) 1 0
      (by decide) (by decide) (by decide)
      (Or.inr (ChildReach.child (by decide)))).1⟩

/-! ### Compute-driver lemmas -/

theorem findNode_storeLayout_self (t : Tree) (n : Nat) (sp : AvailSpace) (l : LayoutRec) :
    findNode (storeLayout t n sp l) n =
      (findNode t n).map (fun r => { r with dirty := false, cached_layout := some (sp, l) }) :=
  findNode_updateNode_self t n _

theorem next_id_storeLayout (t : Tree) (n : Nat) (sp : AvailSpace) (l : LayoutRec) :
    (storeLayout t n sp l).next_id = t.next_id := rfl

theorem live_storeLayout (t : Tree) (n : Nat) (sp : AvailSpace) (l : LayoutRec) (m : Nat) :
    live (storeLayout t n sp l) m = live t m := live_updateNode t n _ _

theorem restResult_error {eng : Engine} {t : Tree} {sp : AvailSpace} {n : Nat}
    {r : NodeRec} {sub : Except TaffyErr (Tree × List LayoutRec × List Nat)}
    {e : TaffyErr} (h : restResult eng t sp n r sub = .error e) : sub = .error e := by
  cases hsub : sub with
  | error e2 =>
    rw [hsub] at h
    simp only [restResult] at h
    injection h with he
    rw [he]
  | ok res =>
    obtain ⟨t1, ls, log⟩ := res
    rw [hsub] at h
    simp only [restResult] at h
    exact absurd h (by simp)

theorem restResult_ok {eng : Engine} {t : Tree} {sp : AvailSpace} {n : Nat}
    {r : NodeRec} {sub : Except TaffyErr (Tree × List LayoutRec × List Nat)}
    {t1 : Tree} {l : LayoutRec} {log : List Nat}
    (h : restResult eng t sp n r sub = .ok (t1, l, log)) :
    ∃ tc lsc logc, sub = .ok (tc, lsc, logc) ∧ t1 = storeLayout tc n sp l ∧
      log = logc ++ [n] := by
  cases hsub : sub with
  | error e2 =>
    rw [hsub] at h
    simp only [restResult] at h
    exact absurd h (by simp)
  | ok res =>
    obtain ⟨tc, lsc, logc⟩ := res
    rw [hsub] at h
    simp only [restResult] at h
    injection h with he
    injection he with he1 he2
    injection he2 with he2 he3
    exact ⟨tc, lsc, logc, rfl, by rw [he2] at he1; exact he1.symm, he3.symm⟩

theorem freshResult_error {eng : Engine} {ms : Option (AvailSpace → Option Nat → SizeN)}
    {t : Tree} {sp : AvailSpace} {n : Nat} {r : NodeRec}
    {sub : Except TaffyErr (Tree × List LayoutRec × List Nat)}
    {e : TaffyErr} (h : freshResult eng ms t sp n r sub = .error e) : sub = .error e := by
  cases hms : ms with
  | some m =>
    simp only [freshResult, hms] at h
    by_cases hrc : r.children = []
    · rw [if_pos hrc] at h
      exact absurd h (by simp)
    · rw [if_neg hrc] at h
      exact restResult_error h
  | none =>
    simp only [freshResult, hms] at h
    exact restResult_error h

theorem freshResult_ok {eng : Engine} {ms : Option (AvailSpace → Option Nat → SizeN)}
    {t : Tree} {sp : AvailSpace} {n : Nat} {r : NodeRec}
    {sub : Except TaffyErr (Tree × List LayoutRec × List Nat)}
    {t1 : Tree} {l : LayoutRec} {log : List Nat}
    (h : freshResult eng ms t sp n r sub = .ok (t1, l, log)) :
    (t1 = storeLayout t n sp l ∧ log = [n]) ∨
      (∃ tc lsc logc, sub = .ok (tc, lsc, logc) ∧ t1 = storeLayout tc n sp l ∧
        log = logc ++ [n]) := by
  cases hms : ms with
  | some m =>
    simp only [freshResult, hms] at h
    by_cases hrc : r.children = []
    · rw [if_pos hrc] at h
      injection h with he
      injection he with he1 he2
      injection he2 with he2 he3
      exact Or.inl ⟨by rw [he2] at he1; exact he1.symm, he3.symm⟩
    · rw [if_neg hrc] at h
      obtain ⟨tc, lsc, logc, h1, h2, h3⟩ := restResult_ok h
      exact Or.inr ⟨tc, lsc, logc, h1, h2, h3⟩
  | none =>
    simp only [freshResult, hms] at h
    obtain ⟨tc, lsc, logc, h1, h2, h3⟩ := restResult_ok h
    exact Or.inr ⟨tc, lsc, logc, h1, h2, h3⟩

theorem nodeResult_error {eng : Engine} {ms : Option (AvailSpace → Option Nat → SizeN)}
    {t : Tree} {sp : AvailSpace} {n : Nat} {r : NodeRec}
    {sub : Except TaffyErr (Tree × List LayoutRec × List Nat)}
    {e : TaffyErr} (h : nodeResult eng ms t sp n r sub = .error e) : sub = .error e := by
  cases hcl : r.cached_layout with
  | some sl =>
    obtain ⟨si, li⟩ := sl
    simp only [nodeResult, hcl] at h
    by_cases hhit : (!r.dirty && decide (si = sp)) = true
    · rw [if_pos hhit] at h
      exact absurd h (by simp)
    · rw [if_neg hhit] at h
      exact freshResult_error h
  | none =>
    simp only [nodeResult, hcl] at h
    exact freshResult_error h

theorem nodeResult_ok {eng : Engine} {ms : Option (AvailSpace → Option Nat → SizeN)}
    {t : Tree} {sp : AvailSpace} {n : Nat} {r : NodeRec}
    {sub : Except TaffyErr (Tree × List LayoutRec × List Nat)}
    {t1 : Tree} {l : LayoutRec} {log : List Nat}
    (h : nodeResult eng ms t sp n r sub = .ok (t1, l, log)) :
    (t1 = t ∧ log = [] ∧ r.dirty = false ∧ r.cached_layout = some (sp, l)) ∨
      (t1 = storeLayout t n sp l ∧ log = [n]) ∨
      (∃ tc lsc logc, sub = .ok (tc, lsc, logc) ∧ t1 = storeLayout tc n sp l ∧
        log = logc ++ [n]) := by
  cases hcl : r.cached_layout with
  | some sl =>
    obtain ⟨si, li⟩ := sl
    simp only [nodeResult, hcl] at h
    by_cases hhit : (!r.dirty && decide (si = sp)) = true
    · rw [if_pos hhit] at h
      injection h with he
      injection he with he1 he2
      injection he2 with he2 he3
      simp only [Bool.and_eq_true, Bool.not_eq_true', decide_eq_true_eq] at hhit
      refine Or.inl ⟨he1.symm, he3.symm, hhit.1, ?_⟩
      rw [hhit.2, he2]
    · rw [if_neg hhit] at h
      rcases freshResult_ok h with h1 | h2
      · exact Or.inr (Or.inl h1)
      · exact Or.inr (Or.inr h2)
  | none =>
    simp only [nodeResult, hcl] at h
    rcases freshResult_ok h with h1 | h2
    · exact Or.inr (Or.inl h1)
    · exact Or.inr (Or.inr h2)

theorem computeMany_pres (eng : Engine) (ms : Option (AvailSpace → Option Nat → SizeN)) :
    ∀ f cs t sp t1 ls log, computeMany eng ms f t sp cs = Except.ok (t1, ls, log) →
      t1.next_id = t.next_id ∧ ∀ m, live t1 m = live t m := by
  intro f
  induction f with
  | zero =>
    intro cs t sp t1 ls log hok
    cases cs with
    | nil =>
      rw [computeMany] at hok
      injection hok with he
      injection he with he1 he2
      rw [← he1]
      exact ⟨rfl, fun m => rfl⟩
    | cons c rest =>
      rw [computeMany] at hok
      exact absurd hok (by simp)
  | succ f ih =>
    intro cs t sp t1 ls log hok
    cases cs with
    | nil =>
      rw [computeMany] at hok
      injection hok with he
      injection he with he1 he2
      rw [← he1]
      exact ⟨rfl, fun m => rfl⟩
    | cons n rest =>
      rw [computeMany] at hok
      cases hfind : findNode t n with
      | none => simp [hfind] at hok
      | some r =>
        simp only [hfind] at hok
        cases hA : nodeResult eng ms t sp n r
            (computeMany eng ms f t (eng.childSpace r.style sp) r.children) with
        | error e =>
          rw [hA] at hok
          exact absurd hok (by simp)
        | ok resA =>
          obtain ⟨tA, lA, logA⟩ := resA
          rw [hA] at hok
          cases hrest : computeMany eng ms f tA sp rest with
          | error e => simp [hrest] at hok
          | ok resB =>
            obtain ⟨tB, lsB, logB⟩ := resB
            simp only [hrest] at hok
            injection hok with he
            injection he with he1 he2
            rw [← he1]
            have hApres : tA.next_id = t.next_id ∧ ∀ m, live tA m = live t m := by
              rcases nodeResult_ok hA with ⟨h1, _⟩ | ⟨h1, _⟩ | ⟨tc, lsc, logc, h1, h2, _⟩
              · rw [h1]; exact ⟨rfl, fun m => rfl⟩
              · rw [h1]
                exact ⟨next_id_storeLayout t n sp lA, fun m => live_storeLayout t n sp lA m⟩
              · have hc := ih r.children t (eng.childSpace r.style sp) tc lsc logc h1
                rw [h2]
                refine ⟨by rw [next_id_storeLayout, hc.1], ?_⟩
                intro m
                rw [live_storeLayout, hc.2 m]
            have h2 := ih rest tA sp tB lsB logB hrest
            refine ⟨by rw [h2.1, hApres.1], ?_⟩
            intro m
            rw [h2.2 m, hApres.2 m]

theorem computeMany_post (eng : Engine) (ms : Option (AvailSpace → Option Nat → SizeN))
    (f : Nat) (t : Tree) (sp : AvailSpace) (n : Nat) (t1 : Tree) (ls : List LayoutRec)
    (log : List Nat) (hok : computeMany eng ms f t sp [n] = Except.ok (t1, ls, log)) :
    ∃ l r1, ls = [l] ∧ findNode t1 n = some r1 ∧ r1.dirty = false ∧
      r1.cached_layout = some (sp, l) := by
  cases f with
  | zero =>
    rw [computeMany] at hok
    exact absurd hok (by simp)
  | succ f =>
    rw [computeMany] at hok
    cases hfind : findNode t n with
    | none => simp [hfind] at hok
    | some r =>
      simp only [hfind] at hok
      cases hA : nodeResult eng ms t sp n r
          (computeMany eng ms f t (eng.childSpace r.style sp) r.children) with
      | error e =>
        rw [hA] at hok
        exact absurd hok (by simp)
      | ok resA =>
        obtain ⟨tA, lA, logA⟩ := resA
        rw [hA] at hok
        simp only [computeMany] at hok
        injection hok with he
        injection he with he1 he2
        injection he2 with he2 he3
        refine ⟨lA, ?_⟩
        rcases nodeResult_ok hA with ⟨h1, _, hd, hc⟩ | ⟨h1, _⟩ | ⟨tc, lsc, logc, h1, h2, _⟩
        · refine ⟨r, he2.symm, ?_, hd, hc⟩
          rw [← he1, h1, hfind]
        · refine ⟨{ r with dirty := false, cached_layout := some (sp, lA) },
            he2.symm, ?_, rfl, rfl⟩
          rw [← he1, h1, findNode_storeLayout_self, hfind]
          rfl
        · have hlivec : live tc n = true := by
            rw [(computeMany_pres eng ms f r.children t (eng.childSpace r.style sp)
              tc lsc logc h1).2 n, live, hfind, Option.isSome_some]
          rw [live] at hlivec
          cases hfc : findNode tc n with
          | none => rw [hfc] at hlivec; simp at hlivec
          | some rc =>
            refine ⟨{ rc with dirty := false, cached_layout := some (sp, lA) },
              he2.symm, ?_, rfl, rfl⟩
            rw [← he1, h2, findNode_storeLayout_self, hfc]
              
            rfl

theorem computeMany_no_mf (eng : Engine) (ms : Option (AvailSpace → Option Nat → SizeN)) :
    ∀ f cs t sp, computeMany eng ms f t sp cs ≠ Except.error TaffyErr.MeasurementFailed := by
  intro f
  induction f with
  | zero =>
    intro cs t sp h
    cases cs with
    | nil => rw [computeMany] at h; exact absurd h (by simp)
    | cons c rest =>
      rw [computeMany] at h
      injection h with he
      exact absurd he (by decide)
  | succ f ih =>
    intro cs t sp h
    cases cs with
    | nil => rw [computeMany] at h; exact absurd h (by simp)
    | cons n rest =>
      rw [computeMany] at h
      cases hfind : findNode t n with
      | none =>
        simp only [hfind] at h
        injection h with he
        exact absurd he (by decide)
      | some r =>
        simp only [hfind] at h
        cases hA : nodeResult eng ms t sp n r
            (computeMany eng ms f t (eng.childSpace r.style sp) r.children) with
        | error e =>
          rw [hA] at h
          injection h with he
          rw [he] at hA
          exact ih r.children t (eng.childSpace r.style sp) (nodeResult_error hA)
        | ok resA =>
          obtain ⟨tA, lA, logA⟩ := resA
          rw [hA] at h
          cases hrest : computeMany eng ms f tA sp rest with
          | error e =>
            simp only [hrest] at h
            injection h with he
            rw [he] at hrest
            exact ih rest tA sp hrest
          | ok resB =>
            obtain ⟨tB, lsB, logB⟩ := resB
            simp only [hrest] at h
            exact absurd h (by simp)

/-- C7: for every tree, root node and available space, if compute_layout
succeeds and yields final tree t1 and root layout l, then a second
compute_layout call on t1 with no intervening mutation returns the very same
tree (so every node's cached layout is identical to the first call's) and the
same root layout, and its run log is empty: the second call is served purely
from cache. -/
theorem compute_layout_idempotent (eng : Engine) (t : Tree) (n : Nat) (sp : AvailSpace) :
    match compute_layout eng t n sp with
    | .ok (t1, l, _) => compute_layout eng t1 n sp = .ok (t1, l, [])
    | .error _ => True := by
  cases hres : compute_layout eng t n sp with
  | error e => exact trivial
  | ok res =>
    obtain ⟨t1, l, log⟩ := res
    show compute_layout eng t1 n sp = Except.ok (t1, l, [])
    rw [compute_layout] at hres
    cases hcm : computeMany eng none (2 * t.next_id + 2) t sp [n] with
    | error e =>
      simp only [hcm] at hres
      exact absurd hres (by simp)
    | ok resA =>
      obtain ⟨tA, lsA, logA⟩ := resA
      simp only [hcm] at hres
      obtain ⟨lA, r1, hls, hf1, hd1, hc1⟩ :=
        computeMany_post eng none (2 * t.next_id + 2) t sp n tA lsA logA hcm
      rw [hls] at hres
      injection hres with he
      injection he with he1 he2
      injection he2 with he2 he3
      have hstep : computeMany eng none (2 * t1.next_id + 1 + 1) t1 sp [n]
          = Except.ok (t1, [lA], []) := by
        rw [computeMany]
        rw [he1] at hf1
        simp [hf1, nodeResult, hc1, hd1, computeMany]
      have hF : (2 : Nat) * t1.next_id + 2 = 2 * t1.next_id + 1 + 1 := rfl
      unfold compute_layout
      rw [hF, hstep, ← he2]

/-- C1 counterexample: a measurement callback that returns an unusable value
(not a size object) on a single-leaf tree.  compute_layout_with_measure
succeeds with a zero-size layout — the closure's unwrap_or(Size::ZERO)
(lib.rs 1418) — instead of failing with MeasurementFailed. -/
theorem measure_unusable_counterexample :
    compute_layout_with_measure ⟨fun _ _ _ => ⟨0, 0, 0, 0⟩, fun _ sp => sp⟩
        (new_leaf emptyTree 0).2 (new_leaf emptyTree 0).1
        ⟨AvailAxis.maxContent, AvailAxis.maxContent⟩ (fun _ _ => some JsVal.other)
      = Except.ok (storeLayout (new_leaf emptyTree 0).2 (new_leaf emptyTree 0).1
          ⟨AvailAxis.maxContent, AvailAxis.maxContent⟩ ⟨0, 0, 0, 0⟩, ⟨0, 0, 0, 0⟩,
          [(new_leaf emptyTree 0).1])
    ∧ compute_layout_with_measure ⟨fun _ _ _ => ⟨0, 0, 0, 0⟩, fun _ sp => sp⟩
        (new_leaf emptyTree 0).2 (new_leaf emptyTree 0).1
        ⟨AvailAxis.maxContent, AvailAxis.maxContent⟩ (fun _ _ => some JsVal.other)
      ≠ Except.error TaffyErr.MeasurementFailed := by
  refine ⟨rfl, ?_⟩
  intro h
  rw [(rfl : compute_layout_with_measure ⟨fun _ _ _ => ⟨0, 0, 0, 0⟩, fun _ sp => sp⟩
        (new_leaf emptyTree 0).2 (new_leaf emptyTree 0).1
        ⟨AvailAxis.maxContent, AvailAxis.maxContent⟩ (fun _ _ => some JsVal.other)
      = Except.ok (storeLayout (new_leaf emptyTree 0).2 (new_leaf emptyTree 0).1
          ⟨AvailAxis.maxContent, AvailAxis.maxContent⟩ ⟨0, 0, 0, 0⟩, ⟨0, 0, 0, 0⟩,
          [(new_leaf emptyTree 0).1]))] at h
  exact Except.noConfusion h

/-- C1 (amended): the binding's measure closure never propagates an unusable
measurement result as an error.  A thrown callback (no result), an undefined
result, and any result that does not parse as a size are all silently
replaced by Size::ZERO inside the closure (lib.rs 1410, 1418), and
compute_layout_with_measure never fails with MeasurementFailed. -/
theorem measure_closure_defaults_zero :
    measure_closure none = SizeN.zero
    ∧ measure_closure (some JsVal.undefined) = SizeN.zero
    ∧ (∀ v : JsVal, from_value v = none → measure_closure (some v) = SizeN.zero)
    ∧ ∀ (eng : Engine) (t : Tree) (n : Nat) (sp : AvailSpace)
        (cb : AvailSpace → Option Nat → Option JsVal),
        compute_layout_with_measure eng t n sp cb
          ≠ Except.error TaffyErr.MeasurementFailed := by
  refine ⟨rfl, rfl, ?_, ?_⟩
  · intro v hv
    rw [measure_closure, Option.getD_some, hv]
    rfl
  · intro eng t n sp cb h
    rw [compute_layout_with_measure] at h
    cases hcm : computeMany eng (some (fun sp2 ctx => measure_closure (cb sp2 ctx)))
        (2 * t.next_id + 2) t sp [n] with
    | error e =>
      simp only [hcm] at h
      injection h with he
      rw [he] at hcm
      exact computeMany_no_mf eng _ _ _ _ _ hcm
    | ok res =>
      obtain ⟨t1, ls, log⟩ := res
      simp only [hcm] at h
      cases ls with
      | nil =>
        injection h with he
        exact absurd he (by decide)
      | cons l0 ltl => exact absurd h (by simp)

/-- Witness for C1's amended theorem at concrete inputs: the unusable value
JsVal.other measures as zero, and a concrete compute_layout_with_measure call
does not produce MeasurementFailed. -/
theorem measure_closure_defaults_zero_witness :
    measure_closure (some JsVal.other) = SizeN.zero
    ∧ compute_layout_with_measure ⟨fun _ _ _ => ⟨0, 0, 0, 0⟩, fun _ sp => sp⟩
        (new_leaf emptyTree 1).2 (new_leaf emptyTree 1).1
        ⟨AvailAxis.minContent, AvailAxis.minContent⟩ (fun _ _ => none)
      ≠ Except.error TaffyErr.MeasurementFailed :=
  ⟨measure_closure_defaults_zero.2.2.1 JsVal.other rfl,
   measure_closure_defaults_zero.2.2.2 ⟨fun _ _ _ => ⟨0, 0, 0, 0⟩, fun _ sp => sp⟩
     (new_leaf emptyTree 1).2 (new_leaf emptyTree 1).1
     ⟨AvailAxis.minContent, AvailAxis.minContent⟩ (fun _ _ => none)⟩

theorem ances_chain_mem (t : Tree) {n a : Nat} (hanc : Ances t n a) :
    rootedB t t.next_id n = true → a ∈ ancChain t t.next_id n := by
  induction hanc with
  | step hp =>
    intro hr
    rename_i m q
    cases hF : t.next_id with
    | zero =>
      have hz : rootedB t 0 m = false := rfl
      rw [hF, hz] at hr
      exact absurd hr (by decide)
    | succ f =>
      rw [ancChain_succ_some f hp]
      exact List.mem_cons_self q _
  | trans h1 h2 ih1 ih2 =>
    intro hr
    have hb := ih1 hr
    have hrb := rooted_of_mem t t.next_id _ _ hr hb
    exact anc_tail_sub t t.next_id _ _ hr hb (ih2 hrb)

/-- C8: for every live node n of a well-formed tree, mark_dirty(n) succeeds,
and in the resulting tree n and every ancestor of n reachable along parent
links (up to and including the root) has its dirty flag set. -/
theorem mark_dirty_marks_ancestors (t : Tree) (n : Nat) (hInv : Inv t)
    (hlive : live t n = true) :
    ∃ t', mark_dirty t n = Except.ok t' ∧ dirtyOf t' n = some true ∧
      ∀ a, Ances t n a → dirtyOf t' a = some true := by
  rw [live] at hlive
  cases hfind : findNode t n with
  | none =>
    rw [hfind] at hlive
    simp at hlive
  | some r =>
    refine ⟨mark_dirty_core t n, ?_, ?_, ?_⟩
    · simp only [mark_dirty, hfind]
    · rw [mark_dirty_core]
      exact dirtyOf_setDirtyList_mem t _ (List.mem_cons_self n _) (by rw [live, hfind]; rfl)
    · intro a hanc
      have hr := hInv.rooted (n := n) (by rw [live, hfind]; rfl)
      have hmem := ances_chain_mem t hanc hr
      have hlivea : live t a = true := hInv.anc_is_live hmem
      rw [mark_dirty_core]
      exact dirtyOf_setDirtyList_mem t _ (List.mem_cons_of_mem n hmem) hlivea

/-- Witness for C8: in the concrete tree where node 0 is the parent of node
1, marking node 1 dirty succeeds and dirties node 1 and every ancestor. -/
theorem mark_dirty_marks_ancestors_witness :
    Inv (applyOps [Op.newLeaf 0, Op.newLeaf 1, Op.addChild 0 1] emptyTree)
    ∧ live (applyOps [Op.newLeaf 0, Op.newLeaf 1, Op.addChild 0 1] emptyTree) 1 = true
    ∧ ∃ t', mark_dirty (applyOps [Op.newLeaf 0, Op.newLeaf 1, Op.addChild 0 1] emptyTree) 1
          = Except.ok t' ∧ dirtyOf t' 1 = some true ∧
        ∀ a, Ances (applyOps [Op.newLeaf 0, Op.newLeaf 1, Op.addChild 0 1] emptyTree) 1 a →
          dirtyOf t' a = some true :=
  ⟨by decide, by decide,
   mark_dirty_marks_ancestors (applyOps [Op.newLeaf 0, Op.newLeaf 1, Op.addChild 0 1] emptyTree)
     1 (by decide) (by decide)⟩

theorem foldl_detach_live (os : List Nat) : ∀ (t : Tree) (m : Nat),
    live (os.foldl detach t) m = live t m := by
  induction os with
  | nil => intro t m; rfl
  | cons o rest ih => intro t m; rw [List.foldl_cons, ih, live_detach]

theorem foldl_detach_next_id (os : List Nat) : ∀ t : Tree,
    (os.foldl detach t).next_id = t.next_id := by
  induction os with
  | nil => intro t; rfl
  | cons o rest ih => intro t; rw [List.foldl_cons, ih, next_id_detach]

theorem foldl_reattach_live (p : Nat) (cs : List Nat) : ∀ (t : Tree) (m : Nat),
    live (cs.foldl (fun acc c =>
      let acc1 := detach acc c
      attach acc1 p c (childrenOf acc1 p).length) t) m = live t m := by
  induction cs with
  | nil => intro t m; rfl
  | cons c rest ih =>
    intro t m
    rw [List.foldl_cons, ih]
    show live (attach (detach t c) p c (childrenOf (detach t c) p).length) m = live t m
    rw [live_attach, live_detach]

theorem foldl_reattach_next_id (p : Nat) (cs : List Nat) : ∀ t : Tree,
    (cs.foldl (fun acc c =>
      let acc1 := detach acc c
      attach acc1 p c (childrenOf (detach acc c) p).length) t).next_id = t.next_id := by
  induction cs with
  | nil => intro t; rfl
  | cons c rest ih =>
    intro t
    rw [List.foldl_cons, ih]
    show (attach (detach t c) p c (childrenOf (detach t c) p).length).next_id = t.next_id
    rw [next_id_attach, next_id_detach]

theorem no_self_parent {t : Tree} (hInv : Inv t) {n : Nat}
    (hp : parentOf t n = some n) : False := by
  have hl : live t n = true := live_of_parent hp
  have hr := hInv.rooted hl
  have hmem : n ∈ ancChain t t.next_id n := by
    cases hF : t.next_id with
    | zero =>
      have hz : rootedB t 0 n = false := rfl
      rw [hF, hz] at hr
      exact absurd hr (by decide)
    | succ f =>
      rw [ancChain_succ_some f hp]
      exact List.mem_cons_self n _
  exact not_mem_self_anc t t.next_id n hr hmem

theorem dead_ops {t : Tree} {n : Nat} (hd : live t n = false) :
    (∀ s, set_style t n s = Except.error TaffyErr.NotFound)
    ∧ mark_dirty t n = Except.error TaffyErr.NotFound
    ∧ dirty t n = Except.error TaffyErr.NotFound
    ∧ layout t n = Except.error TaffyErr.NotFound
    ∧ remove t n = Except.error TaffyErr.NotFound := by
  rw [live] at hd
  cases hfind : findNode t n with
  | some r =>
    rw [hfind] at hd
    exact absurd hd (by simp)
  | none =>
    refine ⟨fun s => ?_, ?_, ?_, ?_, ?_⟩
    · simp only [set_style, hfind]
    · simp only [mark_dirty, hfind]
    · simp only [dirty, hfind]
    · simp only [layout, hfind]
    · simp only [remove, hfind]

theorem stepOp_dead {t : Tree} {n : Nat} (hn : n < t.next_id) (hd : live t n = false) :
    ∀ {op : Op} {t' : Tree}, stepOp t op = Except.ok t' →
      n < t'.next_id ∧ live t' n = false := by
  intro op t' h
  cases op with
  | newLeaf s =>
    rw [stepOp] at h
    injection h with he
    subst he
    have hne : ¬ (t.next_id = n) := by omega
    refine ⟨Nat.lt_succ_of_lt hn, ?_⟩
    have hfind : findNode (new_leaf t s).2 n = findNode t n := by
      show lookupN ((t.next_id, ⟨s, none, [], none, none, true⟩) :: t.nodes) n
        = lookupN t.nodes n
      simp only [lookupN]
      rw [if_neg hne]
    rw [live, hfind]
    exact hd
  | addChild p c =>
    rw [stepOp, add_child] at h
    cases hfp : findNode t p with
    | none => simp [hfp] at h
    | some rp =>
      simp only [hfp] at h
      cases hfc : findNode t c with
      | none => simp [hfc] at h
      | some rc =>
        simp only [hfc] at h
        by_cases hcyc : cycleCheck t p c = true
        · rw [if_pos hcyc] at h
          exact absurd h (by simp)
        · rw [if_neg hcyc] at h
          injection h with he
          subst he
          refine ⟨?_, ?_⟩
          · simp only [next_id_mark_dirty_core, next_id_attach, next_id_detach]
            exact hn
          · simp only [live_mark_dirty_core, live_attach, live_detach]
            exact hd
  | insertChildAtIndex p i c =>
    rw [stepOp, insert_child_at_index] at h
    cases hfp : findNode t p with
    | none => simp [hfp] at h
    | some rp =>
      simp only [hfp] at h
      cases hfc : findNode t c with
      | none => simp [hfc] at h
      | some rc =>
        simp only [hfc] at h
        by_cases hidx : rp.children.length < i
        · rw [if_pos hidx] at h
          exact absurd h (by simp)
        · rw [if_neg hidx] at h
          by_cases hcyc : cycleCheck t p c = true
          · rw [if_pos hcyc] at h
            exact absurd h (by simp)
          · rw [if_neg hcyc] at h
            injection h with he
            subst he
            refine ⟨?_, ?_⟩
            · simp only [next_id_mark_dirty_core, next_id_attach, next_id_detach]
              exact hn
            · simp only [live_mark_dirty_core, live_attach, live_detach]
              exact hd
  | replaceChildAtIndex p i c =>
    rw [stepOp] at h
    cases hrc : replace_child_at_index t p i c with
    | error e =>
      rw [hrc] at h
      exact Except.noConfusion h
    | ok pr =>
      obtain ⟨a, t2⟩ := pr
      rw [hrc] at h
      injection h with he
      subst he
      rw [replace_child_at_index] at hrc
      cases hfp : findNode t p with
      | none => simp [hfp] at hrc
      | some rp =>
        simp only [hfp] at hrc
        cases hfc : findNode t c with
        | none => simp [hfc] at hrc
        | some rc2 =>
          simp only [hfc] at hrc
          by_cases hidx : i < rp.children.length
          · rw [if_pos hidx] at hrc
            by_cases hcyc : cycleCheck t p c = true
            · rw [if_pos hcyc] at hrc
              exact absurd hrc (by simp)
            · rw [if_neg hcyc] at hrc
              injection hrc with he2
              injection he2 with hea heb
              subst heb
              refine ⟨?_, ?_⟩
              · simp only [next_id_mark_dirty_core, next_id_attach, next_id_detach]
                exact hn
              · simp only [live_mark_dirty_core, live_attach, live_detach]
                exact hd
          · rw [if_neg hidx] at hrc
            exact absurd hrc (by simp)
  | setChildren p cs =>
    rw [stepOp, set_children] at h
    cases hfp : findNode t p with
    | none => simp [hfp] at h
    | some rp =>
      simp only [hfp] at h
      by_cases h1 : (!(cs.all (fun c => live t c))) = true
      · rw [if_pos h1] at h
        exact absurd h (by simp)
      · rw [if_neg h1] at h
        by_cases h2 : (!(decide cs.Nodup)) = true
        · rw [if_pos h2] at h
          exact absurd h (by simp)
        · rw [if_neg h2] at h
          by_cases h3 : (cs.any (fun c => cycleCheck t p c)) = true
          · rw [if_pos h3] at h
            exact absurd h (by simp)
          · rw [if_neg h3] at h
            injection h with he
            subst he
            refine ⟨?_, ?_⟩
            · simp only [next_id_mark_dirty_core]
              rw [foldl_reattach_next_id, foldl_detach_next_id]
              exact hn
            · simp only [live_mark_dirty_core]
              rw [foldl_reattach_live, foldl_detach_live]
              exact hd
  | removeNode m =>
    rw [stepOp] at h
    cases hrm : remove t m with
    | error e =>
      rw [hrm] at h
      exact Except.noConfusion h
    | ok pr =>
      obtain ⟨a, t2⟩ := pr
      rw [hrm] at h
      injection h with he
      subst he
      rw [remove] at hrm
      cases hfm : findNode t m with
      | none => simp [hfm] at hrm
      | some r =>
        simp only [hfm] at hrm
        injection hrm with he2
        injection he2 with hea heb
        subst heb
        cases hrp : r.parent with
        | none =>
          refine ⟨?_, ?_⟩
          · show n < (eraseNode (r.children.foldl
                (fun acc c => updateNode acc c (fun rc => { rc with parent := none }))
                (detach t m)) m).next_id
            rw [next_id_eraseNode, clearFold_next_id, next_id_detach]
            exact hn
          · show live (eraseNode (r.children.foldl
                (fun acc c => updateNode acc c (fun rc => { rc with parent := none }))
                (detach t m)) m) n = false
            by_cases hnm : n = m
            · subst hnm
              rw [live, findNode_eraseNode_self]
              rfl
            · rw [live, findNode_eraseNode_ne _ hnm, ← live, clearFold_live, live_detach]
              exact hd
        | some q =>
          refine ⟨?_, ?_⟩
          · show n < (mark_dirty_core (eraseNode (r.children.foldl
                (fun acc c => updateNode acc c (fun rc => { rc with parent := none }))
                (detach t m)) m) q).next_id
            rw [next_id_mark_dirty_core, next_id_eraseNode, clearFold_next_id, next_id_detach]
            exact hn
          · show live (mark_dirty_core (eraseNode (r.children.foldl
                (fun acc c => updateNode acc c (fun rc => { rc with parent := none }))
                (detach t m)) m) q) n = false
            rw [live_mark_dirty_core]
            by_cases hnm : n = m
            · subst hnm
              rw [live, findNode_eraseNode_self]
              rfl
            · rw [live, findNode_eraseNode_ne _ hnm, ← live, clearFold_live, live_detach]
              exact hd
  | setStyle m st =>
    rw [stepOp, set_style] at h
    cases hfm : findNode t m with
    | none => simp [hfm] at h
    | some r =>
      simp only [hfm] at h
      injection h with he
      subst he
      refine ⟨?_, ?_⟩
      · rw [next_id_mark_dirty_core, next_id_updateNode]
        exact hn
      · rw [live_mark_dirty_core, live_updateNode]
        exact hd
  | markDirty m =>
    rw [stepOp, mark_dirty] at h
    cases hfm : findNode t m with
    | none => simp [hfm] at h
    | some r =>
      simp only [hfm] at h
      injection h with he
      subst he
      exact ⟨by rw [next_id_mark_dirty_core]; exact hn,
             by rw [live_mark_dirty_core]; exact hd⟩

theorem applyOp_dead {t : Tree} {n : Nat} (hn : n < t.next_id) (hd : live t n = false)
    (op : Op) : n < (applyOp t op).next_id ∧ live (applyOp t op) n = false := by
  rw [applyOp]
  cases h : stepOp t op with
  | error e => exact ⟨hn, hd⟩
  | ok t2 => exact stepOp_dead hn hd h

theorem applyOps_dead (ops : List Op) : ∀ (t : Tree) (n : Nat), n < t.next_id →
    live t n = false → live (applyOps ops t) n = false := by
  induction ops with
  | nil => intro t n _ hd; exact hd
  | cons op rest ih =>
    intro t n hn hd
    have h1 := applyOp_dead hn hd op
    exact ih (applyOp t op) n h1.1 h1.2

theorem remove_t3_facts {t : Tree} (hInv : Inv t) {n : Nat} {r : NodeRec}
    (hf : findNode t n = some r) :
    live (eraseNode (r.children.foldl
        (fun acc c => updateNode acc c (fun rc => { rc with parent := none }))
        (detach t n)) n) n = false
    ∧ (eraseNode (r.children.foldl
        (fun acc c => updateNode acc c (fun rc => { rc with parent := none }))
        (detach t n)) n).next_id = t.next_id
    ∧ (∀ m, n ∉ childrenOf (eraseNode (r.children.foldl
        (fun acc c => updateNode acc c (fun rc => { rc with parent := none }))
        (detach t n)) n) m)
    ∧ (∀ c ∈ childrenOf t n, c ≠ n ∧ live (eraseNode (r.children.foldl
        (fun acc c2 => updateNode acc c2 (fun rc => { rc with parent := none }))
        (detach t n)) n) c = true ∧ parentOf (eraseNode (r.children.foldl
        (fun acc c2 => updateNode acc c2 (fun rc => { rc with parent := none }))
        (detach t n)) n) c = none) := by
  set t1 := detach t n with ht1
  set t2 := r.children.foldl
    (fun acc c => updateNode acc c (fun rc => { rc with parent := none })) t1 with ht2
  set t3 := eraseNode t2 n with ht3
  have hcs : childrenOf t n = r.children := childrenOf_eq hf
  have hnolist : ∀ m, n ∉ childrenOf t1 m := by
    intro m hm
    cases hpn : parentOf t n with
    | none =>
      have ht1id : t1 = t := by rw [ht1, detach, hpn]
      rw [ht1id] at hm
      have := (hInv.child_back hm).2
      rw [this] at hpn
      exact absurd hpn (by simp)
    | some p =>
      by_cases hmp : m = p
      · subst hmp
        rw [ht1, childrenOf_detach_parent t hpn] at hm
        have hnd : (childrenOf t m).Nodup := hInv.child_nodup (hInv.parent_live n m hpn)
        exact (List.Nodup.mem_erase_iff hnd).mp hm |>.1 rfl
      · rw [ht1, childrenOf_detach_other t (fun p2 hp2 => by
          rw [hpn] at hp2
          injection hp2 with he
          exact he ▸ hmp)] at hm
        have := (hInv.child_back hm).2
        rw [this] at hpn
        injection hpn with he
        exact hmp he
  have hch3 : ∀ m, m ≠ n → childrenOf t3 m = childrenOf t1 m := by
    intro m hm
    rw [ht3, childrenOf, findNode_eraseNode_ne t2 hm, ← childrenOf]
    rw [ht2, clearFold_children]
  have hpar3mem : ∀ m, m ≠ n → m ∈ r.children → parentOf t3 m = none := by
    intro m hm hmc
    rw [ht3, parentOf, findNode_eraseNode_ne t2 hm, ← parentOf]
    rw [ht2, clearFold_parent_mem _ _ m hmc]
  have hlive3 : ∀ m, m ≠ n → live t3 m = live t m := by
    intro m hm
    rw [ht3, live, findNode_eraseNode_ne t2 hm, ← live]
    rw [ht2, clearFold_live, ht1, live_detach]
  refine ⟨?_, ?_, ?_, ?_⟩
  · rw [ht3, live, findNode_eraseNode_self]
    rfl
  · rw [ht3, next_id_eraseNode, ht2, clearFold_next_id, ht1, next_id_detach]
  · intro m
    by_cases hm : m = n
    · subst hm
      rw [ht3, childrenOf, findNode_eraseNode_self]
      simp
    · rw [hch3 m hm]
      exact hnolist m
  · intro c hc
    have hpc : parentOf t c = some n := (hInv.child_back hc).2
    have hcn : c ≠ n := by
      intro he
      exact no_self_parent hInv (he ▸ hpc)
    refine ⟨hcn, ?_, ?_⟩
    · rw [hlive3 c hcn]
      exact (hInv.child_back hc).1
    · exact hpar3mem c hcn (hcs ▸ hc)

/-- C5: removing a live node returns its id, afterwards no node lists it as a
child, each former child is still live with no parent (a parentless root),
and the removed id is invalid: the basic operations on it fail with NotFound
and it never becomes live again under any operation sequence (ids are
generational and never reused). -/
theorem remove_invalidates (t : Tree) (n : Nat) (hInv : Inv t)
    (hlive : live t n = true) :
    ∃ t', remove t n = Except.ok (n, t')
      ∧ live t' n = false
      ∧ (∀ m, n ∉ childrenOf t' m)
      ∧ (∀ c ∈ childrenOf t n, live t' c = true ∧ parentOf t' c = none)
      ∧ (∀ s, set_style t' n s = Except.error TaffyErr.NotFound)
      ∧ mark_dirty t' n = Except.error TaffyErr.NotFound
      ∧ dirty t' n = Except.error TaffyErr.NotFound
      ∧ layout t' n = Except.error TaffyErr.NotFound
      ∧ remove t' n = Except.error TaffyErr.NotFound
      ∧ ∀ ops, live (applyOps ops t') n = false := by
  have hl2 := hlive
  rw [live] at hl2
  cases hf : findNode t n with
  | none =>
    rw [hf] at hl2
    simp at hl2
  | some r =>
    obtain ⟨h3live, h3next, h3nochild, h3children⟩ := remove_t3_facts hInv hf
    have hnlt : n < t.next_id := hInv.live_lt hlive
    cases hrp : r.parent with
    | none =>
      obtain ⟨d1, d2, d3, d4, d5⟩ := dead_ops h3live
      refine ⟨eraseNode (r.children.foldl
          (fun acc c => updateNode acc c (fun rc => { rc with parent := none }))
          (detach t n)) n, ?_, h3live, h3nochild, ?_, d1, d2, d3, d4, d5, ?_⟩
      · simp only [remove, hf, hrp]
      · intro c hc
        exact ⟨(h3children c hc).2.1, (h3children c hc).2.2⟩
      · intro ops
        exact applyOps_dead ops _ n (h3next ▸ hnlt) h3live
    | some p =>
      have hdead : live (mark_dirty_core (eraseNode (r.children.foldl
          (fun acc c => updateNode acc c (fun rc => { rc with parent := none }))
          (detach t n)) n) p) n = false := by
        rw [live_mark_dirty_core]
        exact h3live
      have hnext : (mark_dirty_core (eraseNode (r.children.foldl
          (fun acc c => updateNode acc c (fun rc => { rc with parent := none }))
          (detach t n)) n) p).next_id = t.next_id := by
        rw [next_id_mark_dirty_core]
        exact h3next
      obtain ⟨d1, d2, d3, d4, d5⟩ := dead_ops hdead
      refine ⟨mark_dirty_core (eraseNode (r.children.foldl
          (fun acc c => updateNode acc c (fun rc => { rc with parent := none }))
          (detach t n)) n) p, ?_, hdead, ?_, ?_, d1, d2, d3, d4, d5, ?_⟩
      · simp only [remove, hf, hrp]
      · intro m
        rw [childrenOf_mark_dirty_core]
        exact h3nochild m
      · intro c hc
        refine ⟨?_, ?_⟩
        · rw [live_mark_dirty_core]
          exact (h3children c hc).2.1
        · rw [parentOf_mark_dirty_core]
          exact (h3children c hc).2.2
      · intro ops
        exact applyOps_dead ops _ n (hnext ▸ hnlt) hdead

/-- Witness for C5: removing the root of the concrete two-node tree (node 0
with child node 1). -/
theorem remove_invalidates_witness :
    Inv (applyOps [Op.newLeaf 0, Op.newLeaf 1, Op.addChild 0 1] emptyTree)
    ∧ live (applyOps [Op.newLeaf 0, Op.newLeaf 1, Op.addChild 0 1] emptyTree) 0 = true
    ∧ ∃ t', remove (applyOps [Op.newLeaf 0, Op.newLeaf 1, Op.addChild 0 1] emptyTree) 0
          = Except.ok (0, t')
        ∧ live t' 0 = false
        ∧ (∀ m, 0 ∉ childrenOf t' m)
        ∧ (∀ c ∈ childrenOf (applyOps [Op.newLeaf 0, Op.newLeaf 1, Op.addChild 0 1] emptyTree) 0,
            live t' c = true ∧ parentOf t' c = none)
        ∧ (∀ s, set_style t' 0 s = Except.error TaffyErr.NotFound)
        ∧ mark_dirty t' 0 = Except.error TaffyErr.NotFound
        ∧ dirty t' 0 = Except.error TaffyErr.NotFound
        ∧ layout t' 0 = Except.error TaffyErr.NotFound
        ∧ remove t' 0 = Except.error TaffyErr.NotFound
        ∧ ∀ ops, live (applyOps ops t') 0 = false :=
  ⟨by decide, by decide,
   remove_invalidates (applyOps [Op.newLeaf 0, Op.newLeaf 1, Op.addChild 0 1] emptyTree)
     0 (by decide) (by decide)⟩

end TaffyJs